import Mathlib

/-!
Verification development for the imageCop repository.

The repository's core is `find_similar_images` in `image_comparator.py`:
it lists a directory, filters candidate image files by extension, computes
a perceptual fingerprint per image (skipping failures), builds a similarity
graph over all pairs within a Hamming-distance threshold, and returns the
connected components of size ≥ 2 keyed by their lexicographically smallest
member.  `main.py` wraps it in a `ScanWorker` whose `_is_running` flag gates
signal emission.

Below, the external collaborators (PIL decoding + `imagehash.phash`) are
modelled by an oracle `decode : String → Option Fingerprint` (`none` = the
per-image exception caught at line 65), the file system by `isDir`/`listing`
(`listing = none` = the `OSError` caught at line 35), and the progress
callback by the returned list of `ProgressEvent`s (the calls that would be
made when a callback is provided).
-/

namespace ImageCop

/-- A perceptual fingerprint: a fixed-length bit pattern.  All fingerprints
produced in one scan share a length (`phash` with one `hash_size`). -/
abbrev Fingerprint := List Bool

/-- Hamming distance between two equal-length bit patterns, the model of
`imagehash` subtraction (`count_nonzero(h1.flatten() != h2.flatten())`). -/
def hammingDist (a b : Fingerprint) : Nat :=
  (List.zip a b).countP (fun p => p.1 != p.2)

/-- Python's lexicographic `<` on strings, compared code point by code
point: the order underlying `min(...)` (line 129) and `sorted(...)`
(line 130). -/
def charsLt : List Char → List Char → Bool
  | [], [] => false
  | [], _ :: _ => true
  | _ :: _, [] => false
  | a :: as, b :: bs => if a < b then true else if b < a then false else charsLt as bs

/-- `a < b` on paths. -/
def strLt (a b : String) : Bool := charsLt a.data b.data

/-- `a <= b` on paths (total order: not `b < a`). -/
def strLe (a b : String) : Bool := !(strLt b a)

/-- The ordering proposition used for sorting and minimum selection. -/
abbrev strLE (a b : String) : Prop := strLe a b = true

/-- One invocation of the progress callback: `(current_step, total_steps, message)`. -/
structure ProgressEvent where
  current : Nat
  total : Nat
  message : String
deriving DecidableEq, Repr

/-- The environment of one run of `find_similar_images`: the folder path,
what the file system answers, and the decoding/hashing oracle. -/
structure Env where
  /-- `folder_path` argument. -/
  folder : String
  /-- result of `os.path.isdir(folder_path)` (line 25). -/
  isDir : Bool
  /-- result of `os.listdir(folder_path)`; `none` models the `OSError`
  branch (line 35).  `os.listdir` yields each directory entry once. -/
  listing : Option (List String)
  /-- the stringified `OSError` used in the error message (line 38). -/
  listErr : String
  /-- models `Image.open` + mode conversion + `imagehash.phash` (lines 60-64);
  `none` models the exception caught at line 65. -/
  decode : String → Option Fingerprint
  /-- whether a `progress_callback` was provided. -/
  hasCallback : Bool

/-- `supported_formats` (line 32). -/
def supported_formats : List String :=
  [".png", ".jpg", ".jpeg", ".bmp", ".gif", ".tiff", ".webp"]

/-- `filename.lower().endswith(supported_formats)` (line 42).  Python's
`str.lower()` and `str.endswith` are modelled on the character data
(per-character lowercasing; the seven extensions are ASCII). -/
def isSupported (filename : String) : Bool :=
  supported_formats.any (fun ext => ext.data.isSuffixOf (filename.data.map Char.toLower))

/-- `os.path.join(folder_path, filename)` (line 43). -/
def path_join (folder filename : String) : String :=
  folder ++ "/" ++ filename

/-- The `image_files` list built by lines 41-43. -/
def candidateFiles (folder : String) (all_files : List String) : List String :=
  (all_files.filter (fun f => isSupported f)).map (fun f => path_join folder f)

/-- The calls made to the progress callback at one emission site
(each site is guarded by `if progress_callback:`). -/
def emit (cb : Bool) (e : ProgressEvent) : List ProgressEvent :=
  if cb then [e] else []

/-- The hashing loop (lines 57-72): for each candidate, attempt to decode and
hash it; collect successes (the insertion-ordered `hashes` dict) and emit one
progress event per attempt from the `finally` block.  `processed` is the
value of `processed_count` before the iteration. -/
def hashLoop (cb : Bool) (decode : String → Option Fingerprint) (total_images : Nat) :
    List String → Nat → List (String × Fingerprint) × List ProgressEvent
  | [], _ => ([], [])
  | p :: rest, processed =>
    let ev : ProgressEvent :=
      ⟨processed + 1, total_images * 2,
        "Calculando hash: " ++ toString (processed + 1) ++ "/" ++ toString total_images⟩
    let r := hashLoop cb decode total_images rest (processed + 1)
    match decode p with
    | some h => ((p, h) :: r.1, emit cb ev ++ r.2)
    | none => (r.1, emit cb ev ++ r.2)

/-- The `hashes` dict as a pure function of the candidate list: the
successfully fingerprinted files in candidate order. -/
def fingerprintsOf (decode : String → Option Fingerprint) (files : List String) :
    List (String × Fingerprint) :=
  files.filterMap (fun p => (decode p).map (fun h => (p, h)))

/-- The directed edge appends performed by the pairwise comparison loops
(lines 91-104): for each unordered pair `i < j` within threshold, first
`adj[img_paths[i]].append(img_paths[j])`, then the reverse append.  The head
of the list plays the role of outer index `i`, the tail of inner indices `j`. -/
def comparePairs (thr : Nat) : List (String × Fingerprint) → List (String × String)
  | [] => []
  | (p, h) :: rest =>
    rest.flatMap (fun qg =>
      if hammingDist h qg.2 ≤ thr then [(p, qg.1), (qg.1, p)] else []) ++
    comparePairs thr rest

/-- The ordered pairs `(img_paths[i], img_paths[j])`, `i < j`, enumerated by
the comparison loops (lines 91-104), one entry per distance computation. -/
def comparedPairs : List (String × Fingerprint) → List (String × String)
  | [] => []
  | (p, _) :: rest => rest.map (fun qg => (p, qg.1)) ++ comparedPairs rest

/-- The comparison phase with its progress events (lines 91-104): before each
outer iteration one event is emitted; `cc` is the running `comparison_count`,
`ti = total_images`, `tso = total_steps_overall`, `tc = total_comparisons_possible`. -/
def comparePhase (cb : Bool) (thr ti tso tc : Nat) :
    List (String × Fingerprint) → Nat → List (String × String) × List ProgressEvent
  | [], _ => ([], [])
  | (p, h) :: rest, cc =>
    let ev : ProgressEvent :=
      ⟨ti + cc, tso, "Comparando pares: " ++ toString cc ++ "/" ++ toString tc⟩
    let es := rest.flatMap (fun qg =>
      if hammingDist h qg.2 ≤ thr then [(p, qg.1), (qg.1, p)] else [])
    let r := comparePhase cb thr ti tso tc rest (cc + rest.length)
    (es ++ r.1, emit cb ev ++ r.2)

/-- The adjacency list of the `defaultdict(list)` graph: `adj[u]` is the list
of targets appended with source `u`, in append order.  A key is present in
the dict iff this list is nonempty. -/
def adjList (edges : List (String × String)) (u : String) : List String :=
  (edges.filter (fun e => e.1 == u)).map (fun e => e.2)

/-- The neighbour scan of the BFS inner loop (lines 122-125): enqueue each
not-yet-visited neighbour and mark it visited. -/
def enqueueNew : List String → List String → List String → List String × List String
  | [], q, visited => (q, visited)
  | v :: vs, q, visited =>
    if v ∈ visited then enqueueNew vs q visited
    else enqueueNew vs (q ++ [v]) (visited ++ [v])

/-- The fresh vertices appended to queue and visited set by one neighbour
scan: the not-yet-visited neighbours, first occurrence each. -/
def freshOnes : List String → List String → List String
  | [], _ => []
  | v :: vs, visited =>
    if v ∈ visited then freshOnes vs visited
    else v :: freshOnes vs (visited ++ [v])

/-- The BFS `while q:` loop (lines 117-125), with explicit fuel (the Python
loop terminates because every enqueued vertex is freshly marked visited).
Returns `(current_group, visited)`. -/
def bfsLoop (A : String → List String) :
    Nat → List String → List String → List String → List String × List String
  | 0, _, visited, group => (group, visited)
  | _ + 1, [], visited, group => (group, visited)
  | fuel + 1, u :: qrest, visited, group =>
    let s := enqueueNew (A u) qrest visited
    bfsLoop A fuel s.1 s.2 (group ++ [u])

/-- `min(current_group)` (line 129): Python's `min` scans the list keeping
the smallest element seen so far. -/
def listMin : List String → Option String
  | [] => none
  | x :: xs => some (xs.foldl (fun b y => if strLt y b = true then y else b) x)

/-- The component-extraction loop (lines 111-134): scan the successfully
hashed paths in order; start a BFS at each unvisited path that has a
similarity edge; store components of more than one member keyed by their
lexicographically smallest member, with the member list sorted. -/
def groupsLoop (A : String → List String) (fuel : Nat) :
    List String → List String → List (String × List String)
  | [], _ => []
  | p :: rest, visited =>
    if p ∉ visited ∧ A p ≠ [] then
      let r := bfsLoop A fuel [p] (visited ++ [p]) []
      let tail := groupsLoop A fuel rest r.2
      if 1 < r.1.length then
        ((listMin r.1).getD "", List.insertionSort strLE r.1) :: tail
      else tail
    else if p ∉ visited then
      groupsLoop A fuel rest (visited ++ [p])
    else
      groupsLoop A fuel rest visited

/-- The outcome of one call: the return value (`none` models returning
`None`) and the sequence of progress-callback invocations. -/
structure ScanOutcome where
  result : Option (List (String × List String))
  events : List ProgressEvent

/-- `find_similar_images(folder_path, hash_size, similarity_threshold,
progress_callback)` (lines 7-142).  `hash_size` is absorbed into the
`decode` oracle.  The returned mapping is the insertion-ordered dict
`similar_groups_final`. -/
def find_similar_images (env : Env) (similarity_threshold : Nat) : ScanOutcome :=
  if env.isDir = false then
    ⟨none, emit env.hasCallback ⟨0, 1, "Erro: Pasta não encontrada em " ++ env.folder⟩⟩
  else
    match env.listing with
    | none =>
      ⟨none, emit env.hasCallback ⟨0, 1, "Erro ao listar diretório: " ++ env.listErr⟩⟩
    | some all_files =>
      let image_files := candidateFiles env.folder all_files
      if image_files = [] then
        ⟨some [], emit env.hasCallback ⟨1, 1, "Nenhum arquivo de imagem suportado encontrado."⟩⟩
      else
        let total_images := image_files.length
        let ev0 : ProgressEvent :=
          ⟨0, total_images * 2,
            "Calculando hashes para " ++ toString total_images ++ " imagens..."⟩
        let hr := hashLoop env.hasCallback env.decode total_images image_files 0
        if hr.1 = [] then
          ⟨some [], emit env.hasCallback ev0 ++ hr.2 ++
            emit env.hasCallback
              ⟨total_images * 2, total_images * 2, "Nenhuma imagem pôde ser processada."⟩⟩
        else
          let img_paths := hr.1.map Prod.fst
          let num_hashed := img_paths.length
          let tc := num_hashed * (num_hashed - 1) / 2
          let tso := total_images + tc
          let cr := comparePhase env.hasCallback similarity_threshold total_images tso tc hr.1 0
          let groups := groupsLoop (adjList cr.1) (img_paths.length + 1) img_paths []
          let evF : ProgressEvent :=
            ⟨tso, tso,
              "Concluído. Encontrados " ++ toString groups.length ++
                " grupos de imagens similares."⟩
          ⟨some groups, emit env.hasCallback ev0 ++ hr.2 ++ cr.2 ++ emit env.hasCallback evF⟩

/-- The edge relation of the similarity graph read off the adjacency. -/
def Edge (A : String → List String) (u v : String) : Prop := v ∈ A u

/-- Connectivity in the similarity graph. -/
def Reach (A : String → List String) (u v : String) : Prop :=
  Relation.ReflTransGen (Edge A) u v

/-- `(r, g)` is the result entry determined by the connected component of
`p`: `g` enumerates exactly the vertices connected to `p`, sorted and
duplicate-free, and `r` is its least element. -/
def IsGroupEntry (A : String → List String) (p r : String) (g : List String) : Prop :=
  (∀ x, x ∈ g ↔ Reach A p x) ∧ List.Sorted strLE g ∧ g.Nodup ∧ r ∈ g ∧ ∀ x ∈ g, strLE r x


/-- The candidate list of a run (`image_files`; empty when the run is fatal). -/
def imageFilesOf (env : Env) : List String :=
  candidateFiles env.folder (env.listing.getD [])

/-- The `hashes` dict of a run, in insertion order. -/
def hashesOf (env : Env) : List (String × Fingerprint) :=
  fingerprintsOf env.decode (imageFilesOf env)

/-- `img_paths` (line 82): the successfully hashed paths. -/
def hashedPathsOf (env : Env) : List String :=
  (hashesOf env).map Prod.fst

/-- The similarity-graph adjacency of a run at a given threshold. -/
def adjOf (env : Env) (thr : Nat) : String → List String :=
  adjList (comparePairs thr (hashesOf env))

/-- The number of pairwise comparisons the comparison loops perform. -/
def pairsOf : List (String × Fingerprint) → Nat
  | [] => 0
  | _ :: rest => rest.length + pairsOf rest

/-! #### The worker thread (`main.py`) as an action trace -/

/-- One observable step of the worker thread (`ScanWorker.run`): the work
items of `find_similar_images`, the reads of the `_is_running` flag, and the
signals that reach the GUI. -/
inductive Action where
  /-- opening + hashing one image (comparator lines 60-64). -/
  | hashWork : String → Action
  /-- one pairwise distance computation (comparator line 100). -/
  | pairWork : String → String → Action
  /-- `report_progress` reads `_is_running` (`main.py` line 56); the k-th
  read observes the recorded value. -/
  | flagRead : Nat → Bool → Action
  /-- `progress.emit` (`main.py` line 57). -/
  | progressSignal : ProgressEvent → Action
  /-- `results.emit` (`main.py` line 39). -/
  | resultsSignal : List (String × List String) → Action
  /-- `finished.emit` (`main.py` line 51). -/
  | finishedSignal : Action
deriving DecidableEq, Repr

/-- `true` for the per-image and per-pair work items. -/
def Action.isWork : Action → Bool
  | Action.hashWork _ => true
  | Action.pairWork _ _ => true
  | _ => false

/-- A scheduled step of the pipeline: a unit of work or a progress-callback
invocation. -/
abbrev Step := Action ⊕ ProgressEvent

/-- The work/callback schedule of the hashing loop (comparator lines 57-72):
attempt the image, then invoke the callback from `finally`. -/
def hashSchedule (total_images : Nat) : List String → Nat → List Step
  | [], _ => []
  | p :: rest, processed =>
    Sum.inl (Action.hashWork p) ::
    Sum.inr ⟨processed + 1, total_images * 2,
      "Calculando hash: " ++ toString (processed + 1) ++ "/" ++ toString total_images⟩ ::
    hashSchedule total_images rest (processed + 1)

/-- The work/callback schedule of the comparison loops (comparator lines
91-104): one callback invocation per outer index, then the inner
comparisons. -/
def cmpSchedule (ti tso tc : Nat) : List (String × Fingerprint) → Nat → List Step
  | [], _ => []
  | (p, _) :: rest, cc =>
    Sum.inr ⟨ti + cc, tso, "Comparando pares: " ++ toString cc ++ "/" ++ toString tc⟩ ::
    (rest.map (fun qg => Sum.inl (Action.pairWork p qg.1)) ++
      cmpSchedule ti tso tc rest (cc + rest.length))

/-- The full schedule of one `find_similar_images` call as driven by the
worker, which always passes its `report_progress` callback. -/
def scheduleOf (env : Env) (thr : Nat) : List Step :=
  if env.isDir = false then
    [Sum.inr ⟨0, 1, "Erro: Pasta não encontrada em " ++ env.folder⟩]
  else
    match env.listing with
    | none => [Sum.inr ⟨0, 1, "Erro ao listar diretório: " ++ env.listErr⟩]
    | some all_files =>
      let image_files := candidateFiles env.folder all_files
      if image_files = [] then
        [Sum.inr ⟨1, 1, "Nenhum arquivo de imagem suportado encontrado."⟩]
      else
        let total_images := image_files.length
        let hs := fingerprintsOf env.decode image_files
        Sum.inr ⟨0, total_images * 2,
          "Calculando hashes para " ++ toString total_images ++ " imagens..."⟩ ::
        (hashSchedule total_images image_files 0 ++
          (if hs = [] then
            [Sum.inr ⟨total_images * 2, total_images * 2,
              "Nenhuma imagem pôde ser processada."⟩]
          else
            cmpSchedule total_images (total_images + hs.length * (hs.length - 1) / 2)
              (hs.length * (hs.length - 1) / 2) hs 0 ++
            [Sum.inr ⟨total_images + hs.length * (hs.length - 1) / 2,
              total_images + hs.length * (hs.length - 1) / 2,
              "Concluído. Encontrados " ++
                toString (groupsLoop (adjList (comparePairs thr hs)) (hs.length + 1)
                  (hs.map Prod.fst) []).length ++
                " grupos de imagens similares."⟩]))

/-- Replay a schedule against the `_is_running` flag: work always happens;
each callback invocation reads the flag (read index `k`) and emits the
progress signal only when it observes `true` (`main.py` lines 54-57). -/
def runSched (F : Nat → Bool) : List Step → Nat → List Action
  | [], _ => []
  | Sum.inl a :: rest, k => a :: runSched F rest k
  | Sum.inr e :: rest, k =>
    Action.flagRead k (F k) ::
      (if F k then Action.progressSignal e :: runSched F rest (k + 1)
       else runSched F rest (k + 1))

/-- Number of flag reads a schedule performs. -/
def numReads (sched : List Step) : Nat :=
  sched.countP (fun st => st.isRight)

/-- The observable trace of `ScanWorker.run` (`main.py` lines 28-52): the
replayed pipeline schedule, then the flag read guarding `results.emit`
(taken whether or not the result is `None`, emitting only for a non-`None`
result), then the flag read in `finally` guarding `finished.emit`.
`F k` is the value of `_is_running` at the k-th read; `stop()` only ever
flips it from `true` to `false`. -/
def worker_trace (env : Env) (thr : Nat) (F : Nat → Bool) : List Action :=
  runSched F (scheduleOf env thr) 0 ++
    (Action.flagRead (numReads (scheduleOf env thr)) (F (numReads (scheduleOf env thr))) ::
      ((if F (numReads (scheduleOf env thr)) then
          match (find_similar_images { env with hasCallback := true } thr).result with
          | some m => [Action.resultsSignal m]
          | none => []
        else []) ++
      (Action.flagRead (numReads (scheduleOf env thr) + 1)
          (F (numReads (scheduleOf env thr) + 1)) ::
        (if F (numReads (scheduleOf env thr) + 1) then [Action.finishedSignal] else []))))

/-! #### Concrete environments used to witness the theorems -/

/-- A directory with two image files whose fingerprints coincide. -/
def sampleEnv : Env where
  folder := "d"
  isDir := true
  listing := some ["a.png", "b.png"]
  listErr := ""
  decode := fun _ => some []
  hasCallback := true

/-- `sampleEnv` with the directory listing permuted. -/
def sampleEnvB : Env :=
  { sampleEnv with listing := some ["b.png", "a.png"] }

/-- A run whose target is not a directory. -/
def fatalEnv : Env :=
  { sampleEnv with isDir := false }

/-! ### Basic lemmas about the pipeline pieces -/

theorem charsLt_irrefl : ∀ l : List Char, charsLt l l = false
  | [] => rfl
  | a :: as => by
    rw [charsLt, if_neg (lt_irrefl a), if_neg (lt_irrefl a)]
    exact charsLt_irrefl as

theorem charsLt_asymm : ∀ {a b : List Char}, charsLt a b = true → charsLt b a = false
  | [], [], h => by simp [charsLt] at h
  | [], _ :: _, _ => rfl
  | _ :: _, [], h => by simp [charsLt] at h
  | x :: xs, y :: ys, h => by
    rw [charsLt] at h
    rw [charsLt]
    by_cases hxy : x < y
    · rw [if_neg (asymm hxy), if_pos hxy]
    · rw [if_neg hxy] at h
      by_cases hyx : y < x
      · rw [if_pos hyx] at h
        exact absurd h (by simp)
      · rw [if_neg hyx] at h
        rw [if_neg hyx, if_neg hxy]
        exact charsLt_asymm h

theorem charsLt_nil_right : ∀ l : List Char, charsLt l [] = false
  | [] => rfl
  | _ :: _ => rfl

theorem charsLt_trans : ∀ {a b c : List Char},
    charsLt a b = true → charsLt b c = true → charsLt a c = true
  | _, b, [], _, h2 => by rw [charsLt_nil_right b] at h2; exact absurd h2 (by simp)
  | [], b, _ :: _, _, _ => rfl
  | _ :: _, [], _, h1, _ => by rw [charsLt_nil_right] at h1; exact absurd h1 (by simp)
  | x :: xs, y :: ys, z :: zs, h1, h2 => by
    rw [charsLt] at h1 h2 ⊢
    by_cases hxy : x < y
    · by_cases hyz : y < z
      · rw [if_pos (lt_trans hxy hyz)]
      · rw [if_neg hyz] at h2
        by_cases hzy : z < y
        · rw [if_pos hzy] at h2
          exact absurd h2 (by simp)
        · have hyz' : y = z := le_antisymm (not_lt.mp hzy) (not_lt.mp hyz)
          rw [if_pos (hyz' ▸ hxy)]
    · rw [if_neg hxy] at h1
      by_cases hyx : y < x
      · rw [if_pos hyx] at h1
        exact absurd h1 (by simp)
      · rw [if_neg hyx] at h1
        have hxy' : x = y := le_antisymm (not_lt.mp hyx) (not_lt.mp hxy)
        subst hxy'
        by_cases hxz : x < z
        · rw [if_pos hxz]
        · rw [if_neg hxz] at h2 ⊢
          by_cases hzx : z < x
          · rw [if_pos hzx] at h2
            exact absurd h2 (by simp)
          · rw [if_neg hzx] at h2 ⊢
            exact charsLt_trans h1 h2

theorem charsLt_conn : ∀ {a b : List Char},
    charsLt a b = false → charsLt b a = false → a = b
  | [], [], _, _ => rfl
  | [], _ :: _, h1, _ => by simp [charsLt] at h1
  | _ :: _, [], _, h2 => by simp [charsLt] at h2
  | x :: xs, y :: ys, h1, h2 => by
    rw [charsLt] at h1 h2
    by_cases hxy : x < y
    · rw [if_pos hxy] at h1
      exact absurd h1 (by simp)
    · by_cases hyx : y < x
      · rw [if_pos hyx] at h2
        exact absurd h2 (by simp)
      · rw [if_neg hxy, if_neg hyx] at h1
        rw [if_neg hyx, if_neg hxy] at h2
        have hxy' : x = y := le_antisymm (not_lt.mp hyx) (not_lt.mp hxy)
        rw [hxy', charsLt_conn h1 h2]

theorem strLE_iff (a b : String) : strLE a b ↔ strLt b a = false := by
  cases hv : strLt b a <;> simp [strLE, strLe, hv]

theorem strLE_refl (a : String) : strLE a a := by
  rw [strLE_iff, strLt, charsLt_irrefl]

theorem strLE_of_strLt {a b : String} (h : strLt a b = true) : strLE a b := by
  rw [strLE_iff, strLt]
  rw [strLt] at h
  exact charsLt_asymm h

theorem strLE_total (a b : String) : strLE a b ∨ strLE b a := by
  rw [strLE_iff, strLE_iff]
  by_cases hv : strLt b a = true
  · right
    rw [strLt] at hv ⊢
    exact charsLt_asymm hv
  · left
    cases hv2 : strLt b a
    · rfl
    · exact absurd hv2 hv

theorem strLE_trans {a b c : String} (h1 : strLE a b) (h2 : strLE b c) : strLE a c := by
  rw [strLE_iff, strLt] at h1 h2 ⊢
  cases hv : charsLt c.data a.data
  · rfl
  · exfalso
    by_cases hab : charsLt a.data b.data = true
    · rw [charsLt_trans hv hab] at h2
      exact absurd h2 (by simp)
    · have hab' : charsLt a.data b.data = false := by
        cases hv2 : charsLt a.data b.data
        · rfl
        · exact absurd hv2 hab
      have he : a.data = b.data := charsLt_conn hab' h1
      rw [he] at hv
      rw [hv] at h2
      exact absurd h2 (by simp)

theorem strLE_antisymm {a b : String} (h1 : strLE a b) (h2 : strLE b a) : a = b := by
  rw [strLE_iff, strLt] at h1 h2
  exact String.ext (charsLt_conn h2 h1)


theorem hammingDist_comm (a b : Fingerprint) : hammingDist a b = hammingDist b a := by
  induction a generalizing b with
  | nil => cases b <;> simp [hammingDist]
  | cons x xs ih =>
    cases b with
    | nil => simp [hammingDist]
    | cons y ys =>
      simp only [hammingDist, List.zip_cons_cons, List.countP_cons]
      rw [show ((x != y) = (y != x)) from by cases x <;> cases y <;> rfl]
      have hxs := ih ys
      simp only [hammingDist] at hxs
      omega

/-- The successes collected by the hashing loop do not depend on the
progress bookkeeping. -/
theorem hashLoop_fst (cb : Bool) (decode : String → Option Fingerprint) (T : Nat)
    (files : List String) (c : Nat) :
    (hashLoop cb decode T files c).1 = fingerprintsOf decode files := by
  induction files generalizing c with
  | nil => rfl
  | cons p rest ih =>
    simp only [hashLoop, fingerprintsOf, List.filterMap_cons]
    cases h : decode p <;>
      simp [h, ih, fingerprintsOf]

/-- The edges built by the comparison phase do not depend on the progress
bookkeeping. -/
theorem comparePhase_fst (cb : Bool) (thr ti tso tc : Nat)
    (hs : List (String × Fingerprint)) (cc : Nat) :
    (comparePhase cb thr ti tso tc hs cc).1 = comparePairs thr hs := by
  induction hs generalizing cc with
  | nil => rfl
  | cons ph rest ih =>
    obtain ⟨p, h⟩ := ph
    simp only [comparePhase, comparePairs]
    rw [ih]

theorem comparePairs_mem_keys {thr : Nat} {hs : List (String × Fingerprint)}
    {u v : String} (h : (u, v) ∈ comparePairs thr hs) :
    u ∈ hs.map Prod.fst ∧ v ∈ hs.map Prod.fst := by
  induction hs with
  | nil => simp [comparePairs] at h
  | cons ph rest ih =>
    obtain ⟨p, hp⟩ := ph
    simp only [comparePairs, List.mem_append, List.mem_flatMap] at h
    rcases h with ⟨qg, hqg, hin⟩ | h
    · have hq1 : qg.1 ∈ rest.map Prod.fst := List.mem_map_of_mem Prod.fst hqg
      by_cases hd : hammingDist hp qg.2 ≤ thr
      · rw [if_pos hd] at hin
        simp only [List.mem_cons, List.mem_singleton, List.not_mem_nil, or_false] at hin
        rcases hin with h1 | h1 <;>
        · injection h1 with e1 e2
          subst e1; subst e2
          simp only [List.map_cons, List.mem_cons]
          exact ⟨by simp [hq1], by simp [hq1]⟩
      · rw [if_neg hd] at hin
        simp at hin
    · obtain ⟨h1, h2⟩ := ih h
      exact ⟨List.mem_cons_of_mem _ h1, List.mem_cons_of_mem _ h2⟩

theorem comparePairs_mem_symm {thr : Nat} {hs : List (String × Fingerprint)}
    {u v : String} (h : (u, v) ∈ comparePairs thr hs) :
    (v, u) ∈ comparePairs thr hs := by
  induction hs with
  | nil => simp [comparePairs] at h
  | cons ph rest ih =>
    obtain ⟨p, hp⟩ := ph
    simp only [comparePairs, List.mem_append, List.mem_flatMap] at h ⊢
    rcases h with ⟨qg, hqg, hin⟩ | h
    · left
      refine ⟨qg, hqg, ?_⟩
      by_cases hd : hammingDist hp qg.2 ≤ thr
      · rw [if_pos hd] at hin ⊢
        simp only [List.mem_cons, List.mem_singleton, List.not_mem_nil, or_false] at hin ⊢
        rcases hin with h1 | h1
        · injection h1 with e1 e2; subst e1; subst e2; simp
        · injection h1 with e1 e2; subst e1; subst e2; simp
      · rw [if_neg hd] at hin
        simp at hin
    · exact Or.inr (ih h)

/-- Characterisation of the similarity edges: with duplicate-free keys, the
graph contains the directed edge `(u, v)` iff `u` and `v` are distinct
successfully-hashed images whose fingerprints are within the threshold
(the threshold is inclusive). -/
theorem comparePairs_mem_iff {thr : Nat} {hs : List (String × Fingerprint)}
    (hnd : (hs.map Prod.fst).Nodup) {u v : String} :
    (u, v) ∈ comparePairs thr hs ↔
      u ≠ v ∧ ∃ hu hv, (u, hu) ∈ hs ∧ (v, hv) ∈ hs ∧ hammingDist hu hv ≤ thr := by
  induction hs with
  | nil => simp [comparePairs]
  | cons ph rest ih =>
    obtain ⟨p, hp⟩ := ph
    rw [List.map_cons, List.nodup_cons] at hnd
    obtain ⟨hpk, hndr⟩ := hnd
    constructor
    · intro h
      simp only [comparePairs, List.mem_append, List.mem_flatMap] at h
      rcases h with ⟨qg, hqg, hin⟩ | h
      · have hq1 : qg.1 ∈ rest.map Prod.fst := List.mem_map_of_mem Prod.fst hqg
        have hpq : p ≠ qg.1 := fun he => hpk (he ▸ hq1)
        by_cases hd : hammingDist hp qg.2 ≤ thr
        · rw [if_pos hd] at hin
          simp only [List.mem_cons, List.mem_singleton, List.not_mem_nil, or_false] at hin
          rcases hin with h1 | h1
          · injection h1 with e1 e2; subst e1; subst e2
            exact ⟨hpq, hp, qg.2, List.mem_cons_self _ _,
              List.mem_cons_of_mem _ (by simpa using hqg), hd⟩
          · injection h1 with e1 e2; subst e1; subst e2
            refine ⟨fun he => hpq he.symm, qg.2, hp,
              List.mem_cons_of_mem _ (by simpa using hqg), List.mem_cons_self _ _, ?_⟩
            rw [hammingDist_comm]; exact hd
        · rw [if_neg hd] at hin
          simp at hin
      · obtain ⟨hne, hu, hv, h1, h2, h3⟩ := (ih hndr).mp h
        exact ⟨hne, hu, hv, List.mem_cons_of_mem _ h1, List.mem_cons_of_mem _ h2, h3⟩
    · rintro ⟨hne, hu, hv, h1, h2, h3⟩
      simp only [comparePairs, List.mem_append, List.mem_flatMap]
      rcases List.mem_cons.mp h1 with he1 | h1r
      · injection he1 with e1 e2; subst e1; subst e2
        rcases List.mem_cons.mp h2 with he2 | h2r
        · injection he2 with e3 e4
          exact absurd e3.symm hne
        · left
          refine ⟨(v, hv), h2r, ?_⟩
          rw [if_pos h3]
          simp
      · rcases List.mem_cons.mp h2 with he2 | h2r
        · injection he2 with e3 e4; subst e3; subst e4
          left
          refine ⟨(u, hu), h1r, ?_⟩
          rw [hammingDist_comm] at h3
          rw [if_pos h3]
          simp
        · right
          exact (ih hndr).mpr ⟨hne, hu, hv, h1r, h2r, h3⟩

theorem adjList_mem {edges : List (String × String)} {u v : String} :
    v ∈ adjList edges u ↔ (u, v) ∈ edges := by
  constructor
  · intro h
    simp only [adjList, List.mem_map, List.mem_filter] at h
    obtain ⟨e, ⟨hmem, heq⟩, rfl⟩ := h
    have he1 : e.1 = u := by simpa using heq
    rw [← he1]
    exact hmem
  · intro h
    simp only [adjList, List.mem_map, List.mem_filter]
    exact ⟨(u, v), ⟨h, by simp⟩, rfl⟩

theorem adjList_ne_nil {edges : List (String × String)} {u : String} :
    adjList edges u ≠ [] ↔ ∃ v, (u, v) ∈ edges := by
  constructor
  · intro h
    obtain ⟨v, hv⟩ := List.exists_mem_of_ne_nil _ h
    exact ⟨v, adjList_mem.mp hv⟩
  · rintro ⟨v, hv⟩
    exact List.ne_nil_of_mem (adjList_mem.mpr hv)


/-! ### The BFS computes connected components -/

theorem enqueueNew_eq (vs q visited : List String) :
    enqueueNew vs q visited = (q ++ freshOnes vs visited, visited ++ freshOnes vs visited) := by
  induction vs generalizing q visited with
  | nil => simp [enqueueNew, freshOnes]
  | cons v vs ih =>
    by_cases h : v ∈ visited
    · simp [enqueueNew, freshOnes, h, ih]
    · simp [enqueueNew, freshOnes, h, ih]

theorem freshOnes_sub {vs : List String} :
    ∀ (visited : List String), ∀ x ∈ freshOnes vs visited, x ∈ vs ∧ x ∉ visited := by
  induction vs with
  | nil =>
    intro visited
    simp [freshOnes]
  | cons v vs ih =>
    intro visited x hx
    by_cases h : v ∈ visited
    · rw [freshOnes, if_pos h] at hx
      obtain ⟨h1, h2⟩ := ih visited x hx
      exact ⟨List.mem_cons_of_mem _ h1, h2⟩
    · rw [freshOnes, if_neg h] at hx
      rcases List.mem_cons.mp hx with rfl | hx
      · exact ⟨List.mem_cons_self _ _, h⟩
      · obtain ⟨h1, h2⟩ := ih (visited ++ [v]) x hx
        have h3 : x ∉ visited := fun hc => h2 (by simp [hc])
        exact ⟨List.mem_cons_of_mem _ h1, h3⟩

theorem freshOnes_nodup (vs : List String) : ∀ visited, (freshOnes vs visited).Nodup := by
  induction vs with
  | nil => intro visited; simp [freshOnes]
  | cons v vs ih =>
    intro visited
    by_cases h : v ∈ visited
    · rw [freshOnes, if_pos h]; exact ih visited
    · rw [freshOnes, if_neg h]
      refine List.nodup_cons.mpr ⟨fun hc => ?_, ih _⟩
      exact (freshOnes_sub _ v hc).2 (by simp)

theorem freshOnes_covers {vs : List String} :
    ∀ (visited : List String), ∀ x ∈ vs, x ∈ visited ++ freshOnes vs visited := by
  induction vs with
  | nil => simp
  | cons v vs ih =>
    intro visited x hx
    by_cases h : v ∈ visited
    · rw [freshOnes, if_pos h]
      rcases List.mem_cons.mp hx with rfl | hx
      · exact List.mem_append_left _ h
      · exact ih visited x hx
    · rw [freshOnes, if_neg h]
      rcases List.mem_cons.mp hx with rfl | hx
      · simp
      · have h2 := ih (visited ++ [v]) x hx
        simp only [List.mem_append, List.mem_cons, List.mem_singleton] at h2 ⊢
        tauto

theorem bfsLoop_cons (A : String → List String) (n : Nat) (u : String)
    (qr visited group : List String) :
    bfsLoop A (n + 1) (u :: qr) visited group =
      bfsLoop A n (qr ++ freshOnes (A u) visited)
        (visited ++ freshOnes (A u) visited) (group ++ [u]) := by
  simp [bfsLoop, enqueueNew_eq]

theorem bfsLoop_mono (A : String → List String) :
    ∀ (fuel : Nat) (q visited group : List String),
      (∀ x ∈ visited, x ∈ (bfsLoop A fuel q visited group).2) ∧
      (∀ x ∈ group, x ∈ (bfsLoop A fuel q visited group).1) := by
  intro fuel
  induction fuel with
  | zero => intro q visited group; simp [bfsLoop]
  | succ n ih =>
    intro q visited group
    cases q with
    | nil => simp [bfsLoop]
    | cons u qr =>
      rw [bfsLoop_cons]
      obtain ⟨h1, h2⟩ := ih (qr ++ freshOnes (A u) visited)
        (visited ++ freshOnes (A u) visited) (group ++ [u])
      exact ⟨fun x hx => h1 x (List.mem_append_left _ hx),
        fun x hx => h2 x (List.mem_append_left _ hx)⟩

/-- Anything the BFS collects lies in any adjacency-closed set containing the
queue and the group so far. -/
theorem bfsLoop_sound (A : String → List String) (T : String → Prop)
    (hT : ∀ u, T u → ∀ v ∈ A u, T v) :
    ∀ (fuel : Nat) (q visited group : List String),
      (∀ x ∈ q, T x) → (∀ x ∈ group, T x) →
      ∀ x ∈ (bfsLoop A fuel q visited group).1, T x := by
  intro fuel
  induction fuel with
  | zero =>
    intro q visited group _ hg x hx
    rw [bfsLoop] at hx
    exact hg x hx
  | succ n ih =>
    intro q visited group hq hg x hx
    cases q with
    | nil =>
      rw [bfsLoop] at hx
      exact hg x hx
    | cons u qr =>
      rw [bfsLoop_cons] at hx
      have hu : T u := hq u (List.mem_cons_self _ _)
      refine ih _ _ _ ?_ ?_ x hx
      · intro y hy
        rcases List.mem_append.mp hy with hy | hy
        · exact hq y (List.mem_cons_of_mem _ hy)
        · exact hT u hu y (freshOnes_sub _ y hy).1
      · intro y hy
        rcases List.mem_append.mp hy with hy | hy
        · exact hg y hy
        · rcases List.mem_singleton.mp hy with rfl
          exact hu

/-- The main BFS invariant: with sufficient fuel the loop drains its queue,
producing a duplicate-free group that together with the previously visited
set `V0` accounts for every visited vertex, whose neighbourhoods are fully
visited, and that avoids `V0`. -/
theorem bfsLoop_invariant (A : String → List String) (P V0 : List String)
    (hA : ∀ u v, v ∈ A u → v ∈ P) :
    ∀ (fuel : Nat) (q visited group : List String),
      q.length + (P.toFinset \ visited.toFinset).card ≤ fuel →
      (∀ x ∈ q, x ∈ visited) →
      (∀ x ∈ group, x ∈ visited) →
      (∀ u ∈ group, ∀ v ∈ A u, v ∈ visited) →
      (∀ x ∈ visited, x ∈ V0 ∨ x ∈ group ∨ x ∈ q) →
      (∀ x ∈ V0, x ∈ visited) →
      (∀ x ∈ group, x ∉ V0) →
      (∀ x ∈ q, x ∉ V0) →
      (group ++ q).Nodup →
      ((bfsLoop A fuel q visited group).1.Nodup ∧
        (∀ x ∈ (bfsLoop A fuel q visited group).2,
          x ∈ V0 ∨ x ∈ (bfsLoop A fuel q visited group).1) ∧
        (∀ u ∈ (bfsLoop A fuel q visited group).1,
          ∀ v ∈ A u, v ∈ (bfsLoop A fuel q visited group).2) ∧
        (∀ x ∈ (bfsLoop A fuel q visited group).1, x ∉ V0)) := by
  intro fuel
  induction fuel with
  | zero =>
    intro q visited group hfuel hqvis hgvis hgproc hvcases hV0vis hgV0 hqV0 hnd
    have hqnil : q = [] := by
      have : q.length = 0 := by omega
      exact List.length_eq_zero.mp this
    subst hqnil
    rw [bfsLoop]
    refine ⟨by simpa using hnd, ?_, hgproc, hgV0⟩
    intro x hx
    rcases hvcases x hx with h | h | h
    · exact Or.inl h
    · exact Or.inr h
    · simp at h
  | succ n ih =>
    intro q visited group hfuel hqvis hgvis hgproc hvcases hV0vis hgV0 hqV0 hnd
    cases q with
    | nil =>
      rw [bfsLoop]
      refine ⟨by simpa using hnd, ?_, hgproc, hgV0⟩
      intro x hx
      rcases hvcases x hx with h | h | h
      · exact Or.inl h
      · exact Or.inr h
      · simp at h
    | cons u qr =>
      rw [bfsLoop_cons]
      set F := freshOnes (A u) visited with hF
      have hFsub : ∀ x ∈ F, x ∈ A u ∧ x ∉ visited := fun x hx => freshOnes_sub visited x hx
      have hFnd : F.Nodup := freshOnes_nodup (A u) visited
      have hFfin : F.toFinset ⊆ P.toFinset \ visited.toFinset := by
        intro x hx
        rw [List.mem_toFinset] at hx
        obtain ⟨h1, h2⟩ := hFsub x hx
        rw [Finset.mem_sdiff, List.mem_toFinset, List.mem_toFinset]
        exact ⟨hA u x h1, h2⟩
      have hsd : P.toFinset \ (visited ++ F).toFinset =
          (P.toFinset \ visited.toFinset) \ F.toFinset := by
        ext x
        simp only [Finset.mem_sdiff, List.toFinset_append, Finset.mem_union]
        tauto
      have hcard : (P.toFinset \ (visited ++ F).toFinset).card =
          (P.toFinset \ visited.toFinset).card - F.length := by
        rw [hsd, Finset.card_sdiff hFfin, List.toFinset_card_of_nodup hFnd]
      have hFle : F.length ≤ (P.toFinset \ visited.toFinset).card := by
        calc F.length = F.toFinset.card := (List.toFinset_card_of_nodup hFnd).symm
        _ ≤ _ := Finset.card_le_card hFfin
      have huvis : u ∈ visited := hqvis u (List.mem_cons_self _ _)
      refine ih (qr ++ F) (visited ++ F) (group ++ [u]) ?_ ?_ ?_ ?_ ?_ ?_ ?_ ?_ ?_
      · rw [List.length_append, hcard]
        simp only [List.length_cons] at hfuel
        omega
      · intro x hx
        rcases List.mem_append.mp hx with hx | hx
        · exact List.mem_append_left _ (hqvis x (List.mem_cons_of_mem _ hx))
        · exact List.mem_append_right _ hx
      · intro x hx
        rcases List.mem_append.mp hx with hx | hx
        · exact List.mem_append_left _ (hgvis x hx)
        · rcases List.mem_singleton.mp hx with rfl
          exact List.mem_append_left _ huvis
      · intro w hw v hv
        rcases List.mem_append.mp hw with hw | hw
        · exact List.mem_append_left _ (hgproc w hw v hv)
        · rcases List.mem_singleton.mp hw with rfl
          exact freshOnes_covers visited v hv
      · intro x hx
        rcases List.mem_append.mp hx with hx | hx
        · rcases hvcases x hx with h | h | h
          · exact Or.inl h
          · exact Or.inr (Or.inl (List.mem_append_left _ h))
          · rcases List.mem_cons.mp h with rfl | h
            · exact Or.inr (Or.inl (List.mem_append_right _ (by simp)))
            · exact Or.inr (Or.inr (List.mem_append_left _ h))
        · exact Or.inr (Or.inr (List.mem_append_right _ hx))
      · intro x hx
        exact List.mem_append_left _ (hV0vis x hx)
      · intro x hx
        rcases List.mem_append.mp hx with hx | hx
        · exact hgV0 x hx
        · rcases List.mem_singleton.mp hx with rfl
          exact hqV0 x (List.mem_cons_self _ _)
      · intro x hx
        rcases List.mem_append.mp hx with hx | hx
        · exact hqV0 x (List.mem_cons_of_mem _ hx)
        · intro hxV0
          exact (hFsub x hx).2 (hV0vis x hxV0)
      · have hnd1 : ((group ++ [u]) ++ qr).Nodup := by
          rw [List.append_assoc]
          exact hnd
        have hdisj : ∀ x ∈ (group ++ [u]) ++ qr, x ∉ F := by
          intro x hx hxF
          have hxvis : x ∈ visited := by
            rcases List.mem_append.mp hx with hx | hx
            · rcases List.mem_append.mp hx with hx | hx
              · exact hgvis x hx
              · rcases List.mem_singleton.mp hx with rfl
                exact huvis
            · exact hqvis x (List.mem_cons_of_mem _ hx)
          exact (hFsub x hxF).2 hxvis
        have : (((group ++ [u]) ++ qr) ++ F).Nodup := by
          refine List.Nodup.append hnd1 hFnd ?_
          intro x hx1 hx2
          exact hdisj x hx1 hx2
        simpa [List.append_assoc] using this


/-! ### Reachability utilities -/

theorem reach_mem {A : String → List String} {P : List String}
    (hA : ∀ u v, v ∈ A u → v ∈ P) {p x : String} (hpx : Reach A p x) (hp : p ∈ P) :
    x ∈ P := by
  induction hpx with
  | refl => exact hp
  | tail _ hz _ => exact hA _ _ hz

theorem reach_symm {A : String → List String} (hsym : ∀ u v, v ∈ A u → u ∈ A v)
    {p q : String} (h : Reach A p q) : Reach A q p :=
  Relation.ReflTransGen.symmetric (fun a b hab => hsym a b hab) h

/-- A path starting outside an adjacency-closed set of a symmetric graph
never enters it. -/
theorem reach_avoid {A : String → List String} (hsym : ∀ u v, v ∈ A u → u ∈ A v)
    {V : List String} (hVc : ∀ u ∈ V, ∀ v ∈ A u, v ∈ V)
    {p x : String} (hp : p ∉ V) (hr : Reach A p x) : x ∉ V := by
  induction hr with
  | refl => exact hp
  | tail _ hz ih =>
    intro hzV
    exact ih (hVc _ hzV _ (hsym _ _ hz))

theorem reach_mono {A B : String → List String} (hAB : ∀ u v, v ∈ A u → v ∈ B u)
    {p x : String} (h : Reach A p x) : Reach B p x :=
  Relation.ReflTransGen.mono (fun a b hab => hAB a b hab) h

/-- Full correctness of one BFS launch (lines 113-125): started at an
unvisited vertex `p` over an adjacency-closed previously-visited set `V0`,
it collects exactly the connected component of `p`, without duplicates, and
leaves a visited set that is `V0` plus that component, again closed. -/
theorem bfsLoop_component (A : String → List String) (P V0 : List String)
    (hA : ∀ u v, v ∈ A u → v ∈ P)
    (hsym : ∀ u v, v ∈ A u → u ∈ A v)
    (hV0c : ∀ u ∈ V0, ∀ v ∈ A u, v ∈ V0)
    (p : String) (hpV0 : p ∉ V0) (fuel : Nat) (hfuel : P.length + 1 ≤ fuel) :
    (∀ x, x ∈ (bfsLoop A fuel [p] (V0 ++ [p]) []).1 ↔ Reach A p x) ∧
    (bfsLoop A fuel [p] (V0 ++ [p]) []).1.Nodup ∧
    (∀ x ∈ (bfsLoop A fuel [p] (V0 ++ [p]) []).2,
      x ∈ V0 ∨ x ∈ (bfsLoop A fuel [p] (V0 ++ [p]) []).1) ∧
    (∀ x ∈ V0, x ∈ (bfsLoop A fuel [p] (V0 ++ [p]) []).2) ∧
    (∀ u ∈ (bfsLoop A fuel [p] (V0 ++ [p]) []).2,
      ∀ v ∈ A u, v ∈ (bfsLoop A fuel [p] (V0 ++ [p]) []).2) := by
  have hcardle : (P.toFinset \ (V0 ++ [p]).toFinset).card ≤ P.length := by
    calc (P.toFinset \ (V0 ++ [p]).toFinset).card
        ≤ P.toFinset.card := Finset.card_le_card (Finset.sdiff_subset)
    _ ≤ P.length := List.toFinset_card_le P
  obtain ⟨hnodup, hcases, hproc, hnV0⟩ :=
    bfsLoop_invariant A P V0 hA fuel [p] (V0 ++ [p]) []
      (by simp only [List.length_singleton]; omega)
      (by intro x hx; rcases List.mem_singleton.mp hx with rfl; simp)
      (by intro x hx; simp at hx)
      (by intro u hu; simp at hu)
      (by
        intro x hx
        rcases List.mem_append.mp hx with hx | hx
        · exact Or.inl hx
        · exact Or.inr (Or.inr hx))
      (by intro x hx; exact List.mem_append_left _ hx)
      (by intro x hx; simp at hx)
      (by intro x hx; rcases List.mem_singleton.mp hx with rfl; exact hpV0)
      (by simp)
  have hmono := bfsLoop_mono A fuel [p] (V0 ++ [p]) []
  have hpv : p ∈ (bfsLoop A fuel [p] (V0 ++ [p]) []).2 :=
    hmono.1 p (List.mem_append_right _ (by simp))
  have hpg : p ∈ (bfsLoop A fuel [p] (V0 ++ [p]) []).1 := by
    rcases hcases p hpv with h | h
    · exact absurd h hpV0
    · exact h
  have hV0v : ∀ x ∈ V0, x ∈ (bfsLoop A fuel [p] (V0 ++ [p]) []).2 :=
    fun x hx => hmono.1 x (List.mem_append_left _ hx)
  refine ⟨?_, hnodup, hcases, hV0v, ?_⟩
  · intro x
    constructor
    · intro hx
      refine bfsLoop_sound A (Reach A p) ?_ fuel [p] (V0 ++ [p]) [] ?_ ?_ x hx
      · intro u hu v hv
        exact Relation.ReflTransGen.tail hu hv
      · intro y hy
        rcases List.mem_singleton.mp hy with rfl
        exact Relation.ReflTransGen.refl
      · intro y hy
        simp at hy
    · intro hx
      have hx' : Relation.ReflTransGen (Edge A) p x := hx
      clear hx
      induction hx' with
      | refl => exact hpg
      | tail hab hbc ih =>
        have hbg := ih
        have hcv := hproc _ hbg _ hbc
        rcases hcases _ hcv with hcV0 | hcg
        · exact absurd (hV0c _ hcV0 _ (hsym _ _ hbc)) (hnV0 _ hbg)
        · exact hcg
  · intro u hu v hv
    rcases hcases u hu with huV0 | hug
    · exact hV0v v (hV0c u huV0 v hv)
    · exact hproc u hug v hv

/-! ### listMin and group-entry facts -/

theorem foldl_pymin_mem (xs : List String) (a : String) :
    xs.foldl (fun b y => if strLt y b = true then y else b) a = a ∨
      xs.foldl (fun b y => if strLt y b = true then y else b) a ∈ xs := by
  induction xs generalizing a with
  | nil => simp
  | cons x xs ih =>
    rw [List.foldl_cons]
    rcases ih (if strLt x a = true then x else a) with h | h
    · rw [h]
      by_cases hc : strLt x a = true
      · rw [if_pos hc]
        exact Or.inr (List.mem_cons_self _ _)
      · rw [if_neg hc]
        exact Or.inl rfl
    · exact Or.inr (List.mem_cons_of_mem _ h)

theorem foldl_pymin_le (xs : List String) (a : String) :
    strLE (xs.foldl (fun b y => if strLt y b = true then y else b) a) a ∧
    ∀ x ∈ xs, strLE (xs.foldl (fun b y => if strLt y b = true then y else b) a) x := by
  induction xs generalizing a with
  | nil => exact ⟨strLE_refl a, by simp⟩
  | cons x xs ih =>
    rw [List.foldl_cons]
    obtain ⟨h1, h2⟩ := ih (if strLt x a = true then x else a)
    have hba : strLE (if strLt x a = true then x else a) a := by
      by_cases hc : strLt x a = true
      · rw [if_pos hc]
        exact strLE_of_strLt hc
      · rw [if_neg hc]
        exact strLE_refl a
    have hbx : strLE (if strLt x a = true then x else a) x := by
      by_cases hc : strLt x a = true
      · rw [if_pos hc]
        exact strLE_refl x
      · rw [if_neg hc, strLE_iff]
        cases hv : strLt x a
        · rfl
        · exact absurd hv hc
    refine ⟨strLE_trans h1 hba, ?_⟩
    intro y hy
    rcases List.mem_cons.mp hy with rfl | hy
    · exact strLE_trans h1 hbx
    · exact h2 y hy

theorem listMin_spec {l : List String} (h : l ≠ []) (d : String) :
    (listMin l).getD d ∈ l ∧ ∀ x ∈ l, strLE ((listMin l).getD d) x := by
  cases l with
  | nil => exact absurd rfl h
  | cons a xs =>
    rw [listMin, Option.getD_some]
    obtain ⟨h1, h2⟩ := foldl_pymin_le xs a
    constructor
    · rcases foldl_pymin_mem xs a with he | he
      · rw [he]
        exact List.mem_cons_self _ _
      · exact List.mem_cons_of_mem _ he
    · intro x hx
      rcases List.mem_cons.mp hx with rfl | hx
      · exact h1
      · exact h2 x hx

theorem one_lt_length_of_mem_ne {l : List String} {a b : String}
    (ha : a ∈ l) (hb : b ∈ l) (hab : a ≠ b) : 1 < l.length := by
  cases l with
  | nil => simp at ha
  | cons x xs =>
    cases xs with
    | nil =>
      rcases List.mem_singleton.mp ha with rfl
      rcases List.mem_singleton.mp hb with rfl
      exact absurd rfl hab
    | cons y ys => simp only [List.length_cons]; omega

/-- A component determines its result entry uniquely. -/
theorem IsGroupEntry_eq {A : String → List String} {p r1 r2 : String}
    {g1 g2 : List String} (h1 : IsGroupEntry A p r1 g1) (h2 : IsGroupEntry A p r2 g2) :
    r1 = r2 ∧ g1 = g2 := by
  obtain ⟨hm1, hs1, hn1, hr1, hl1⟩ := h1
  obtain ⟨hm2, hs2, hn2, hr2, hl2⟩ := h2
  have hperm : List.Perm g1 g2 := by
    rw [List.perm_ext_iff_of_nodup hn1 hn2]
    intro x
    rw [hm1 x, hm2 x]
  haveI : IsAntisymm String strLE := ⟨fun a b => strLE_antisymm⟩
  have hg : g1 = g2 := List.eq_of_perm_of_sorted hperm hs1 hs2
  subst hg
  exact ⟨strLE_antisymm (hl1 r2 hr2) (hl2 r1 hr1), rfl⟩

/-- Any member of a component yields the same result entry. -/
theorem IsGroupEntry_congr {A : String → List String}
    (hsym : ∀ u v, v ∈ A u → u ∈ A v) {p p' r : String} {g : List String}
    (hpp : Reach A p p') :
    IsGroupEntry A p r g ↔ IsGroupEntry A p' r g := by
  have key : ∀ x, Reach A p x ↔ Reach A p' x := by
    intro x
    constructor
    · intro h
      exact Relation.ReflTransGen.trans (reach_symm hsym hpp) h
    · intro h
      exact Relation.ReflTransGen.trans hpp h
  constructor
  · rintro ⟨hm, hs, hn, hr, hl⟩
    exact ⟨fun x => (hm x).trans (key x), hs, hn, hr, hl⟩
  · rintro ⟨hm, hs, hn, hr, hl⟩
    exact ⟨fun x => (hm x).trans (key x).symm, hs, hn, hr, hl⟩


/-! ### The component-extraction loop -/

theorem groupsLoop_cons_bfs {A : String → List String} {fuel : Nat} {p : String}
    {rest visited : List String} (h1 : p ∉ visited) (h2 : A p ≠ [])
    (hlen : 1 < (bfsLoop A fuel [p] (visited ++ [p]) []).1.length) :
    groupsLoop A fuel (p :: rest) visited =
      ((listMin (bfsLoop A fuel [p] (visited ++ [p]) []).1).getD "",
        List.insertionSort strLE (bfsLoop A fuel [p] (visited ++ [p]) []).1) ::
      groupsLoop A fuel rest (bfsLoop A fuel [p] (visited ++ [p]) []).2 := by
  simp only [groupsLoop]
  rw [if_pos ⟨h1, h2⟩, if_pos hlen]

theorem groupsLoop_cons_isolated {A : String → List String} {fuel : Nat} {p : String}
    {rest visited : List String} (h1 : p ∉ visited) (h2 : A p = []) :
    groupsLoop A fuel (p :: rest) visited = groupsLoop A fuel rest (visited ++ [p]) := by
  simp only [groupsLoop]
  rw [if_neg (by intro hc; exact hc.2 h2), if_pos h1]

theorem groupsLoop_cons_visited {A : String → List String} {fuel : Nat} {p : String}
    {rest visited : List String} (h1 : p ∈ visited) :
    groupsLoop A fuel (p :: rest) visited = groupsLoop A fuel rest visited := by
  simp only [groupsLoop]
  rw [if_neg (by intro hc; exact hc.1 h1), if_neg (by simpa using h1)]

theorem bfsLoop_group_visited (A : String → List String) :
    ∀ (fuel : Nat) (q visited group : List String),
      (∀ x ∈ q, x ∈ visited) → (∀ x ∈ group, x ∈ visited) →
      ∀ x ∈ (bfsLoop A fuel q visited group).1, x ∈ (bfsLoop A fuel q visited group).2 := by
  intro fuel
  induction fuel with
  | zero =>
    intro q visited group _ hg x hx
    rw [bfsLoop] at hx ⊢
    exact hg x hx
  | succ n ih =>
    intro q visited group hq hg x hx
    cases q with
    | nil =>
      rw [bfsLoop] at hx ⊢
      exact hg x hx
    | cons u qr =>
      rw [bfsLoop_cons] at hx ⊢
      refine ih _ _ _ ?_ ?_ x hx
      · intro y hy
        rcases List.mem_append.mp hy with hy | hy
        · exact List.mem_append_left _ (hq y (List.mem_cons_of_mem _ hy))
        · exact List.mem_append_right _ hy
      · intro y hy
        rcases List.mem_append.mp hy with hy | hy
        · exact List.mem_append_left _ (hg y hy)
        · rcases List.mem_singleton.mp hy with rfl
          exact List.mem_append_left _ (hq y (List.mem_cons_self _ _))

/-- Characterisation of the groups produced by the extraction loop: an entry
`(r, g)` appears iff some remaining unvisited vertex `p` has a similarity
edge and `(r, g)` is the entry of `p`'s connected component. -/
theorem groupsLoop_char (A : String → List String) (P : List String)
    (hA : ∀ u v, v ∈ A u → v ∈ P)
    (hsym : ∀ u v, v ∈ A u → u ∈ A v)
    (hirr : ∀ u, u ∉ A u)
    (fuel : Nat) (hfuel : P.length + 1 ≤ fuel) :
    ∀ (remaining visited : List String),
      (∀ u ∈ visited, ∀ v ∈ A u, v ∈ visited) →
      ∀ r g, ((r, g) ∈ groupsLoop A fuel remaining visited ↔
        ∃ p, p ∈ remaining ∧ p ∉ visited ∧ A p ≠ [] ∧ IsGroupEntry A p r g) := by
  intro remaining
  induction remaining with
  | nil =>
    intro visited hVc r g
    simp [groupsLoop]
  | cons p rest ih =>
    intro visited hVc r g
    by_cases hpv : p ∈ visited
    · rw [groupsLoop_cons_visited hpv, ih visited hVc r g]
      constructor
      · rintro ⟨q, hq1, hq2, hq3, hq4⟩
        exact ⟨q, List.mem_cons_of_mem _ hq1, hq2, hq3, hq4⟩
      · rintro ⟨q, hq1, hq2, hq3, hq4⟩
        rcases List.mem_cons.mp hq1 with rfl | hq1
        · exact absurd hpv hq2
        · exact ⟨q, hq1, hq2, hq3, hq4⟩
    · by_cases hpe : A p = []
      · have hVc' : ∀ u ∈ visited ++ [p], ∀ v ∈ A u, v ∈ visited ++ [p] := by
          intro u hu v hv
          rcases List.mem_append.mp hu with hu | hu
          · exact List.mem_append_left _ (hVc u hu v hv)
          · rcases List.mem_singleton.mp hu with rfl
            rw [hpe] at hv
            simp at hv
        rw [groupsLoop_cons_isolated hpv hpe, ih (visited ++ [p]) hVc' r g]
        constructor
        · rintro ⟨q, hq1, hq2, hq3, hq4⟩
          refine ⟨q, List.mem_cons_of_mem _ hq1, fun hc => hq2 (List.mem_append_left _ hc),
            hq3, hq4⟩
        · rintro ⟨q, hq1, hq2, hq3, hq4⟩
          rcases List.mem_cons.mp hq1 with rfl | hq1
          · exact absurd hpe hq3
          · refine ⟨q, hq1, fun hc => ?_, hq3, hq4⟩
            rcases List.mem_append.mp hc with hc | hc
            · exact hq2 hc
            · rcases List.mem_singleton.mp hc with rfl
              exact hq3 hpe
      · -- BFS is launched at p
        obtain ⟨hiff, hnodup, hcases, hV0v, hclosed⟩ :=
          bfsLoop_component A P visited hA hsym hVc p hpv fuel hfuel
        obtain ⟨v0, hv0⟩ := List.exists_mem_of_ne_nil _ hpe
        have hv0grp : v0 ∈ (bfsLoop A fuel [p] (visited ++ [p]) []).1 :=
          (hiff v0).mpr (Relation.ReflTransGen.single hv0)
        have hpgrp : p ∈ (bfsLoop A fuel [p] (visited ++ [p]) []).1 :=
          (hiff p).mpr Relation.ReflTransGen.refl
        have hv0p : v0 ≠ p := fun he => hirr p (he ▸ hv0)
        have hlen : 1 < (bfsLoop A fuel [p] (visited ++ [p]) []).1.length :=
          one_lt_length_of_mem_ne hv0grp hpgrp hv0p
        have hgne : (bfsLoop A fuel [p] (visited ++ [p]) []).1 ≠ [] :=
          List.ne_nil_of_mem hpgrp
        obtain ⟨hmm, hml⟩ := listMin_spec hgne ""
        haveI : IsTotal String strLE := ⟨strLE_total⟩
        haveI : IsTrans String strLE := ⟨fun a b c => strLE_trans⟩
        have hentry : IsGroupEntry A p
            ((listMin (bfsLoop A fuel [p] (visited ++ [p]) []).1).getD "")
            (List.insertionSort strLE (bfsLoop A fuel [p] (visited ++ [p]) []).1) := by
          refine ⟨?_, List.sorted_insertionSort _ _, ?_, ?_, ?_⟩
          · intro x
            rw [List.mem_insertionSort]
            exact hiff x
          · exact ((List.perm_insertionSort _ _).nodup_iff).mpr hnodup
          · rw [List.mem_insertionSort]
            exact hmm
          · intro x hx
            rw [List.mem_insertionSort] at hx
            exact hml x hx
        have hmono := bfsLoop_mono A fuel [p] (visited ++ [p]) []
        have hvsub : ∀ x ∈ visited, x ∈ (bfsLoop A fuel [p] (visited ++ [p]) []).2 :=
          fun x hx => hmono.1 x (List.mem_append_left _ hx)
        rw [groupsLoop_cons_bfs hpv hpe hlen]
        rw [List.mem_cons, ih _ hclosed r g]
        constructor
        · rintro (he | ⟨q, hq1, hq2, hq3, hq4⟩)
          · injection he with e1 e2
            subst e1; subst e2
            exact ⟨p, List.mem_cons_self _ _, hpv, hpe, hentry⟩
          · exact ⟨q, List.mem_cons_of_mem _ hq1, fun hc => hq2 (hvsub q hc), hq3, hq4⟩
        · rintro ⟨q, hq1, hq2, hq3, hq4⟩
          by_cases hR : Reach A p q
          · left
            have hq5 : IsGroupEntry A p r g := (IsGroupEntry_congr hsym hR).mpr hq4
            obtain ⟨e1, e2⟩ := IsGroupEntry_eq hentry hq5
            rw [← e1, ← e2]
          · right
            have hqp : q ≠ p := fun he => hR (he ▸ Relation.ReflTransGen.refl)
            have hq1' : q ∈ rest := by
              rcases List.mem_cons.mp hq1 with rfl | h
              · exact absurd rfl hqp
              · exact h
            refine ⟨q, hq1', fun hc => ?_, hq3, hq4⟩
            rcases hcases q hc with h | h
            · exact hq2 h
            · exact hR ((hiff q).mp h)


/-- Every vertex with a similarity edge ends up in some produced group. -/
theorem groupsLoop_coverage (A : String → List String) (P : List String)
    (hA : ∀ u v, v ∈ A u → v ∈ P)
    (hsym : ∀ u v, v ∈ A u → u ∈ A v)
    (hirr : ∀ u, u ∉ A u)
    (fuel : Nat) (hfuel : P.length + 1 ≤ fuel) :
    ∀ (remaining visited : List String),
      (∀ u ∈ visited, ∀ v ∈ A u, v ∈ visited) →
      ∀ p ∈ remaining, p ∉ visited → A p ≠ [] →
        ∃ r g, (r, g) ∈ groupsLoop A fuel remaining visited ∧ p ∈ g := by
  intro remaining
  induction remaining with
  | nil =>
    intro visited hVc p hp
    simp at hp
  | cons q rest ih =>
    intro visited hVc p hp hpnv hpne
    by_cases hqv : q ∈ visited
    · rw [groupsLoop_cons_visited hqv]
      rcases List.mem_cons.mp hp with rfl | hp'
      · exact absurd hqv hpnv
      · exact ih visited hVc p hp' hpnv hpne
    · by_cases hqe : A q = []
      · have hVc' : ∀ u ∈ visited ++ [q], ∀ v ∈ A u, v ∈ visited ++ [q] := by
          intro u hu v hv
          rcases List.mem_append.mp hu with hu | hu
          · exact List.mem_append_left _ (hVc u hu v hv)
          · rcases List.mem_singleton.mp hu with rfl
            rw [hqe] at hv
            simp at hv
        rw [groupsLoop_cons_isolated hqv hqe]
        rcases List.mem_cons.mp hp with rfl | hp'
        · exact absurd hqe hpne
        · refine ih (visited ++ [q]) hVc' p hp' ?_ hpne
          intro hc
          rcases List.mem_append.mp hc with hc | hc
          · exact hpnv hc
          · rcases List.mem_singleton.mp hc with rfl
            exact hpne hqe
      · obtain ⟨hiff, hnodup, hcases, hV0v, hclosed⟩ :=
          bfsLoop_component A P visited hA hsym hVc q hqv fuel hfuel
        obtain ⟨v0, hv0⟩ := List.exists_mem_of_ne_nil _ hqe
        have hv0grp : v0 ∈ (bfsLoop A fuel [q] (visited ++ [q]) []).1 :=
          (hiff v0).mpr (Relation.ReflTransGen.single hv0)
        have hqgrp : q ∈ (bfsLoop A fuel [q] (visited ++ [q]) []).1 :=
          (hiff q).mpr Relation.ReflTransGen.refl
        have hv0q : v0 ≠ q := fun he => hirr q (he ▸ hv0)
        have hlen : 1 < (bfsLoop A fuel [q] (visited ++ [q]) []).1.length :=
          one_lt_length_of_mem_ne hv0grp hqgrp hv0q
        rw [groupsLoop_cons_bfs hqv hqe hlen]
        by_cases hR : Reach A q p
        · refine ⟨(listMin (bfsLoop A fuel [q] (visited ++ [q]) []).1).getD "",
            List.insertionSort strLE (bfsLoop A fuel [q] (visited ++ [q]) []).1,
            List.mem_cons_self _ _, ?_⟩
          rw [List.mem_insertionSort]
          exact (hiff p).mpr hR
        · have hqp : p ≠ q := fun he => hR (he ▸ Relation.ReflTransGen.refl)
          have hp' : p ∈ rest := by
            rcases List.mem_cons.mp hp with rfl | h
            · exact absurd rfl hqp
            · exact h
          have hpnv' : p ∉ (bfsLoop A fuel [q] (visited ++ [q]) []).2 := by
            intro hc
            rcases hcases p hc with h | h
            · exact hpnv h
            · exact hR ((hiff p).mp h)
          obtain ⟨r, g, hmem, hpg⟩ := ih _ hclosed p hp' hpnv' hpne
          exact ⟨r, g, List.mem_cons_of_mem _ hmem, hpg⟩

/-- Members of produced groups were unvisited when the loop suffix started. -/
theorem groupsLoop_avoid (A : String → List String) (P : List String)
    (hA : ∀ u v, v ∈ A u → v ∈ P)
    (hsym : ∀ u v, v ∈ A u → u ∈ A v)
    (hirr : ∀ u, u ∉ A u)
    (fuel : Nat) (hfuel : P.length + 1 ≤ fuel)
    (remaining visited : List String)
    (hVc : ∀ u ∈ visited, ∀ v ∈ A u, v ∈ visited)
    {r : String} {g : List String}
    (hmem : (r, g) ∈ groupsLoop A fuel remaining visited) :
    ∀ x ∈ g, x ∉ visited := by
  intro x hx
  obtain ⟨p, _, hpnv, _, hent⟩ :=
    (groupsLoop_char A P hA hsym hirr fuel hfuel remaining visited hVc r g).mp hmem
  exact reach_avoid hsym hVc hpnv ((hent.1 x).mp hx)

/-- The representatives keying the produced groups are pairwise distinct. -/
theorem groupsLoop_keys_nodup (A : String → List String) (P : List String)
    (hA : ∀ u v, v ∈ A u → v ∈ P)
    (hsym : ∀ u v, v ∈ A u → u ∈ A v)
    (hirr : ∀ u, u ∉ A u)
    (fuel : Nat) (hfuel : P.length + 1 ≤ fuel) :
    ∀ (remaining visited : List String),
      (∀ u ∈ visited, ∀ v ∈ A u, v ∈ visited) →
      ((groupsLoop A fuel remaining visited).map Prod.fst).Nodup := by
  intro remaining
  induction remaining with
  | nil =>
    intro visited hVc
    simp [groupsLoop]
  | cons p rest ih =>
    intro visited hVc
    by_cases hpv : p ∈ visited
    · rw [groupsLoop_cons_visited hpv]
      exact ih visited hVc
    · by_cases hpe : A p = []
      · have hVc' : ∀ u ∈ visited ++ [p], ∀ v ∈ A u, v ∈ visited ++ [p] := by
          intro u hu v hv
          rcases List.mem_append.mp hu with hu | hu
          · exact List.mem_append_left _ (hVc u hu v hv)
          · rcases List.mem_singleton.mp hu with rfl
            rw [hpe] at hv
            simp at hv
        rw [groupsLoop_cons_isolated hpv hpe]
        exact ih _ hVc'
      · obtain ⟨hiff, hnodup, hcases, hV0v, hclosed⟩ :=
          bfsLoop_component A P visited hA hsym hVc p hpv fuel hfuel
        obtain ⟨v0, hv0⟩ := List.exists_mem_of_ne_nil _ hpe
        have hv0grp : v0 ∈ (bfsLoop A fuel [p] (visited ++ [p]) []).1 :=
          (hiff v0).mpr (Relation.ReflTransGen.single hv0)
        have hpgrp : p ∈ (bfsLoop A fuel [p] (visited ++ [p]) []).1 :=
          (hiff p).mpr Relation.ReflTransGen.refl
        have hv0p : v0 ≠ p := fun he => hirr p (he ▸ hv0)
        have hlen : 1 < (bfsLoop A fuel [p] (visited ++ [p]) []).1.length :=
          one_lt_length_of_mem_ne hv0grp hpgrp hv0p
        have hgne : (bfsLoop A fuel [p] (visited ++ [p]) []).1 ≠ [] :=
          List.ne_nil_of_mem hpgrp
        rw [groupsLoop_cons_bfs hpv hpe hlen, List.map_cons, List.nodup_cons]
        refine ⟨?_, ih _ hclosed⟩
        intro hkc
        obtain ⟨rg, hmemtail, he⟩ := List.mem_map.mp hkc
        obtain ⟨q, _, hqnv, _, hent⟩ :=
          (groupsLoop_char A P hA hsym hirr fuel hfuel rest _ hclosed rg.1 rg.2).mp
            (by simpa using hmemtail)
        have hr'nv : rg.1 ∉ (bfsLoop A fuel [p] (visited ++ [p]) []).2 :=
          reach_avoid hsym hclosed hqnv ((hent.1 rg.1).mp hent.2.2.2.1)
        apply hr'nv
        rw [he]
        have hkey : (listMin (bfsLoop A fuel [p] (visited ++ [p]) []).1).getD "" ∈
            (bfsLoop A fuel [p] (visited ++ [p]) []).1 := (listMin_spec hgne "").1
        refine bfsLoop_group_visited A fuel [p] (visited ++ [p]) [] ?_ ?_ _ hkey
        · intro y hy
          rcases List.mem_singleton.mp hy with rfl
          simp
        · intro y hy
          simp at hy


/-! ### Putting the pipeline together -/

theorem path_join_inj (folder : String) {a b : String}
    (h : path_join folder a = path_join folder b) : a = b := by
  rw [path_join, path_join] at h
  have hd := congrArg String.data h
  simp only [String.data_append] at hd
  exact String.ext (List.append_cancel_left hd)

theorem candidateFiles_nodup {folder : String} {fs : List String} (h : fs.Nodup) :
    (candidateFiles folder fs).Nodup := by
  rw [candidateFiles]
  refine (h.filter _).map ?_
  intro a b hab
  exact path_join_inj folder hab

theorem fingerprintsOf_keys_sublist (d : String → Option Fingerprint) (files : List String) :
    ((fingerprintsOf d files).map Prod.fst).Sublist files := by
  induction files with
  | nil => simp [fingerprintsOf]
  | cons p rest ih =>
    rw [fingerprintsOf, List.filterMap_cons]
    cases hd : d p with
    | none =>
      rw [fingerprintsOf] at ih
      exact ih.cons p
    | some h =>
      rw [fingerprintsOf] at ih
      simpa using ih.cons₂ p

theorem fingerprintsOf_mem {d : String → Option Fingerprint} {files : List String}
    {p : String} {h : Fingerprint} :
    (p, h) ∈ fingerprintsOf d files ↔ p ∈ files ∧ d p = some h := by
  rw [fingerprintsOf, List.mem_filterMap]
  constructor
  · rintro ⟨a, ha, he⟩
    cases hd : d a with
    | none => rw [hd] at he; simp at he
    | some hv =>
      rw [hd] at he
      simp only [Option.map_some'] at he
      injection he with he'
      injection he' with e1 e2
      subst e1; subst e2
      exact ⟨ha, hd⟩
  · rintro ⟨hp, hd⟩
    exact ⟨p, hp, by rw [hd]; rfl⟩

theorem hashedPathsOf_nodup {env : Env} {fs : List String}
    (h2 : env.listing = some fs) (hnd : fs.Nodup) : (hashedPathsOf env).Nodup := by
  have hcand : (imageFilesOf env).Nodup := by
    rw [imageFilesOf, h2]
    exact candidateFiles_nodup hnd
  exact (fingerprintsOf_keys_sublist env.decode (imageFilesOf env)).nodup hcand

/-- The structural facts about the similarity graph needed for component
extraction: adjacency targets are hashed paths, the graph is symmetric, and
it has no self-loops. -/
theorem adjOf_props (env : Env) (thr : Nat) (hnd : (hashedPathsOf env).Nodup) :
    (∀ u v, v ∈ adjOf env thr u → v ∈ hashedPathsOf env) ∧
    (∀ u v, v ∈ adjOf env thr u → u ∈ adjOf env thr v) ∧
    (∀ u, u ∉ adjOf env thr u) := by
  refine ⟨?_, ?_, ?_⟩
  · intro u v hv
    rw [adjOf, adjList_mem] at hv
    exact (comparePairs_mem_keys hv).2
  · intro u v hv
    rw [adjOf, adjList_mem] at hv ⊢
    exact comparePairs_mem_symm hv
  · intro u hu
    rw [adjOf, adjList_mem] at hu
    have hnd' : ((hashesOf env).map Prod.fst).Nodup := hnd
    exact ((comparePairs_mem_iff hnd').mp hu).1 rfl

theorem find_result_fatal (env : Env) (thr : Nat)
    (h : env.isDir = false ∨ env.listing = none) :
    (find_similar_images env thr).result = none := by
  rcases h with h | h
  · rw [find_similar_images, if_pos h]
  · rw [find_similar_images]
    by_cases hd : env.isDir = false
    · rw [if_pos hd]
    · rw [if_neg hd, h]

theorem find_result_nocand (env : Env) (thr : Nat)
    (h1 : env.isDir = true) {fs : List String} (h2 : env.listing = some fs)
    (hc : imageFilesOf env = []) :
    (find_similar_images env thr).result = some [] := by
  have hif : candidateFiles env.folder fs = imageFilesOf env := by
    rw [imageFilesOf, h2]; rfl
  rw [find_similar_images, if_neg (by rw [h1]; simp), h2]
  simp only [hif, hc, if_pos]

theorem find_result_nohash (env : Env) (thr : Nat)
    (h1 : env.isDir = true) {fs : List String} (h2 : env.listing = some fs)
    (hc : imageFilesOf env ≠ []) (hh : hashesOf env = []) :
    (find_similar_images env thr).result = some [] := by
  have hif : candidateFiles env.folder fs = imageFilesOf env := by
    rw [imageFilesOf, h2]; rfl
  rw [find_similar_images, if_neg (by rw [h1]; simp), h2]
  simp only [hif, if_neg hc, hashLoop_fst]
  have hh' : fingerprintsOf env.decode (imageFilesOf env) = [] := hh
  simp only [hh', if_pos]

theorem find_result_main (env : Env) (thr : Nat)
    (h1 : env.isDir = true) {fs : List String} (h2 : env.listing = some fs)
    (hc : imageFilesOf env ≠ []) (hh : hashesOf env ≠ []) :
    (find_similar_images env thr).result =
      some (groupsLoop (adjOf env thr) ((hashedPathsOf env).length + 1)
        (hashedPathsOf env) []) := by
  have hif : candidateFiles env.folder fs = imageFilesOf env := by
    rw [imageFilesOf, h2]; rfl
  have hh' : fingerprintsOf env.decode (imageFilesOf env) ≠ [] := hh
  rw [find_similar_images, if_neg (by rw [h1]; simp), h2]
  simp only [hif, if_neg hc, hashLoop_fst, if_neg hh', comparePhase_fst]
  rfl

/-- The central characterisation of a non-fatal run: its mapping holds one
entry per similarity component reachable from some hashed path with an edge,
keys are pairwise distinct, and every hashed path with an edge is covered. -/
theorem find_groups_char (env : Env) (thr : Nat)
    (h1 : env.isDir = true) {fs : List String} (h2 : env.listing = some fs)
    (hnd : fs.Nodup) {M : List (String × List String)}
    (hM : (find_similar_images env thr).result = some M) :
    (∀ r g, ((r, g) ∈ M ↔ ∃ p, p ∈ hashedPathsOf env ∧ adjOf env thr p ≠ [] ∧
      IsGroupEntry (adjOf env thr) p r g)) ∧
    (M.map Prod.fst).Nodup ∧
    (∀ p ∈ hashedPathsOf env, adjOf env thr p ≠ [] → ∃ r g, (r, g) ∈ M ∧ p ∈ g) := by
  have hkeys : (hashedPathsOf env).Nodup := hashedPathsOf_nodup h2 hnd
  obtain ⟨hA, hsym, hirr⟩ := adjOf_props env thr hkeys
  by_cases hc : imageFilesOf env = []
  · have hres := find_result_nocand env thr h1 h2 hc
    rw [hM] at hres
    injection hres with hres
    subst hres
    have hp0 : hashedPathsOf env = [] := by
      rw [hashedPathsOf, hashesOf, hc]
      rfl
    rw [hp0]
    refine ⟨?_, by simp, by simp⟩
    intro r g
    simp
  · by_cases hh : hashesOf env = []
    · have hres := find_result_nohash env thr h1 h2 hc hh
      rw [hM] at hres
      injection hres with hres
      subst hres
      have hp0 : hashedPathsOf env = [] := by
        rw [hashedPathsOf, hh]
        rfl
      rw [hp0]
      refine ⟨?_, by simp, by simp⟩
      intro r g
      simp
    · have hres := find_result_main env thr h1 h2 hc hh
      rw [hM] at hres
      injection hres with hres
      subst hres
      have hVc : ∀ u ∈ ([] : List String), ∀ v ∈ adjOf env thr u, v ∈ ([] : List String) := by
        intro u hu
        simp at hu
      refine ⟨?_, ?_, ?_⟩
      · intro r g
        rw [groupsLoop_char (adjOf env thr) (hashedPathsOf env) hA hsym hirr
          ((hashedPathsOf env).length + 1) (le_refl _) (hashedPathsOf env) [] hVc r g]
        constructor
        · rintro ⟨p, hp1, _, hp3, hp4⟩
          exact ⟨p, hp1, hp3, hp4⟩
        · rintro ⟨p, hp1, hp3, hp4⟩
          exact ⟨p, hp1, by simp, hp3, hp4⟩
      · exact groupsLoop_keys_nodup (adjOf env thr) (hashedPathsOf env) hA hsym hirr
          ((hashedPathsOf env).length + 1) (le_refl _) (hashedPathsOf env) [] hVc
      · intro p hp hpe
        exact groupsLoop_coverage (adjOf env thr) (hashedPathsOf env) hA hsym hirr
          ((hashedPathsOf env).length + 1) (le_refl _) (hashedPathsOf env) [] hVc p hp
          (by simp) hpe


/-! ### Claim theorems -/

/-- C1: every returned mapping has exactly one entry per connected component
of size ≥ 2 of the similarity graph over successfully fingerprinted images:
keys are pairwise distinct; `(r, g)` is an entry iff it is the group entry of
the component of some fingerprinted image with a similarity edge — `g` then
enumerates the whole component, sorted lexicographically and including the
key, and `r` is the component's lexicographically smallest member; every
such component is covered; and having a similarity edge is equivalent to the
component having a second member, so size-1 components produce no entry. -/
theorem C1_result_is_component_partition (env : Env) (thr : Nat)
    (h1 : env.isDir = true) {fs : List String} (h2 : env.listing = some fs)
    (hnd : fs.Nodup) {M : List (String × List String)}
    (hM : (find_similar_images env thr).result = some M) :
    (M.map Prod.fst).Nodup ∧
    (∀ r g, ((r, g) ∈ M ↔ ∃ p, p ∈ hashedPathsOf env ∧ adjOf env thr p ≠ [] ∧
      IsGroupEntry (adjOf env thr) p r g)) ∧
    (∀ p ∈ hashedPathsOf env, adjOf env thr p ≠ [] → ∃ r g, (r, g) ∈ M ∧ p ∈ g) ∧
    (∀ p ∈ hashedPathsOf env, (adjOf env thr p ≠ [] ↔
      ∃ q, q ∈ hashedPathsOf env ∧ q ≠ p ∧ Reach (adjOf env thr) p q)) := by
  obtain ⟨hchar, hkeys, hcov⟩ := find_groups_char env thr h1 h2 hnd hM
  obtain ⟨hA, hsym, hirr⟩ := adjOf_props env thr (hashedPathsOf_nodup h2 hnd)
  refine ⟨hkeys, hchar, hcov, ?_⟩
  intro p hp
  constructor
  · intro hne
    obtain ⟨v, hv⟩ := List.exists_mem_of_ne_nil _ hne
    exact ⟨v, hA p v hv, fun he => hirr p (he ▸ hv), Relation.ReflTransGen.single hv⟩
  · rintro ⟨q, hq, hqp, hR⟩
    rcases Relation.ReflTransGen.cases_head hR with he | ⟨c, hc, _⟩
    · exact absurd he.symm hqp
    · exact List.ne_nil_of_mem hc

theorem C1_witness :
    (([("d/a.png", ["d/a.png", "d/b.png"])] : List (String × List String)).map
      Prod.fst).Nodup :=
  (C1_result_is_component_partition sampleEnv 5 rfl rfl (by decide)
    (show (find_similar_images sampleEnv 5).result =
      some [("d/a.png", ["d/a.png", "d/b.png"])] by decide)).1

/-- C3: in every returned mapping, groups form a partition: each group has at
least 2 members, its list is sorted and duplicate-free, every member was
successfully fingerprinted, keys are pairwise distinct, and distinct groups
are disjoint (so every path appearing in any group appears in exactly one). -/
theorem C3_groups_partition (env : Env) (thr : Nat)
    (h1 : env.isDir = true) {fs : List String} (h2 : env.listing = some fs)
    (hnd : fs.Nodup) {M : List (String × List String)}
    (hM : (find_similar_images env thr).result = some M) :
    (∀ r g, (r, g) ∈ M → 2 ≤ g.length ∧ List.Sorted strLE g ∧ g.Nodup ∧
      ∀ x ∈ g, ∃ h, (x, h) ∈ hashesOf env) ∧
    (M.map Prod.fst).Nodup ∧
    (∀ r1 g1 r2 g2, (r1, g1) ∈ M → (r2, g2) ∈ M → r1 ≠ r2 → ∀ x ∈ g1, x ∉ g2) := by
  obtain ⟨hchar, hkeys, _⟩ := find_groups_char env thr h1 h2 hnd hM
  obtain ⟨hA, hsym, hirr⟩ := adjOf_props env thr (hashedPathsOf_nodup h2 hnd)
  refine ⟨?_, hkeys, ?_⟩
  · intro r g hmem
    obtain ⟨p, hp, hpe, hent⟩ := (hchar r g).mp hmem
    obtain ⟨v0, hv0⟩ := List.exists_mem_of_ne_nil _ hpe
    have hpg : p ∈ g := (hent.1 p).mpr Relation.ReflTransGen.refl
    have hvg : v0 ∈ g := (hent.1 v0).mpr (Relation.ReflTransGen.single hv0)
    have hvp : v0 ≠ p := fun he => hirr p (he ▸ hv0)
    refine ⟨one_lt_length_of_mem_ne hvg hpg hvp, hent.2.1, hent.2.2.1, ?_⟩
    intro x hx
    have hxp : x ∈ hashedPathsOf env := reach_mem hA ((hent.1 x).mp hx) hp
    rw [hashedPathsOf] at hxp
    obtain ⟨yh, hmem2, he⟩ := List.mem_map.mp hxp
    refine ⟨yh.2, ?_⟩
    have : yh = (x, yh.2) := by
      rw [← he]
    rw [← this]
    exact hmem2
  · intro r1 g1 r2 g2 hm1 hm2 hne x hx1 hx2
    obtain ⟨p1, hp1, _, hent1⟩ := (hchar r1 g1).mp hm1
    obtain ⟨p2, _, _, hent2⟩ := (hchar r2 g2).mp hm2
    have h12 : Reach (adjOf env thr) p1 p2 := by
      refine Relation.ReflTransGen.trans ((hent1.1 x).mp hx1) ?_
      exact reach_symm hsym ((hent2.1 x).mp hx2)
    have hent2' : IsGroupEntry (adjOf env thr) p1 r2 g2 :=
      (IsGroupEntry_congr hsym h12).mpr hent2
    exact hne (IsGroupEntry_eq hent1 hent2').1

theorem C3_witness :
    2 ≤ (["d/a.png", "d/b.png"] : List String).length ∧
    List.Sorted strLE (["d/a.png", "d/b.png"] : List String) ∧
    (["d/a.png", "d/b.png"] : List String).Nodup ∧
    ∀ x ∈ (["d/a.png", "d/b.png"] : List String), ∃ h, (x, h) ∈ hashesOf sampleEnv :=
  (C3_groups_partition sampleEnv 5 rfl rfl (by decide)
    (show (find_similar_images sampleEnv 5).result =
      some [("d/a.png", ["d/a.png", "d/b.png"])] by decide)).1
    "d/a.png" ["d/a.png", "d/b.png"] (by simp)

/-- C6: `find_similar_images` returns `None` iff the run is fatal (the
target is not a directory, or listing it raises an error); the three empty
outcomes — no candidate files, no successful fingerprints, no groups within
threshold — all return a mapping (the first two explicitly the empty one),
never `None`. -/
theorem C6_none_iff_fatal (env : Env) (thr : Nat) :
    ((find_similar_images env thr).result = none ↔
      (env.isDir = false ∨ env.listing = none)) ∧
    (∀ fs, env.isDir = true → env.listing = some fs → imageFilesOf env = [] →
      (find_similar_images env thr).result = some []) ∧
    (∀ fs, env.isDir = true → env.listing = some fs → imageFilesOf env ≠ [] →
      hashesOf env = [] → (find_similar_images env thr).result = some []) ∧
    (∀ fs, env.isDir = true → env.listing = some fs →
      ∃ M, (find_similar_images env thr).result = some M) := by
  have hsome : ∀ fs, env.isDir = true → env.listing = some fs →
      ∃ M, (find_similar_images env thr).result = some M := by
    intro fs h1 h2
    by_cases hc : imageFilesOf env = []
    · exact ⟨[], find_result_nocand env thr h1 h2 hc⟩
    · by_cases hh : hashesOf env = []
      · exact ⟨[], find_result_nohash env thr h1 h2 hc hh⟩
      · exact ⟨_, find_result_main env thr h1 h2 hc hh⟩
  refine ⟨⟨?_, find_result_fatal env thr⟩,
    fun fs h1 h2 hc => find_result_nocand env thr h1 h2 hc,
    fun fs h1 h2 hc hh => find_result_nohash env thr h1 h2 hc hh, hsome⟩
  intro hres
  by_cases hd : env.isDir = false
  · exact Or.inl hd
  · have h1 : env.isDir = true := by
      cases henv : env.isDir
      · exact absurd henv hd
      · rfl
    by_cases hl : env.listing = none
    · exact Or.inr hl
    · obtain ⟨fs, hfs⟩ := Option.ne_none_iff_exists'.mp hl
      obtain ⟨M, hm⟩ := hsome fs h1 hfs
      rw [hm] at hres
      exact absurd hres (by simp)

theorem C6_witness :
    (find_similar_images fatalEnv 5).result = none ∧
    (find_similar_images sampleEnv 5).result ≠ none := by
  constructor
  · exact (C6_none_iff_fatal fatalEnv 5).1.mpr (Or.inl rfl)
  · obtain ⟨M, hm⟩ := (C6_none_iff_fatal sampleEnv 5).2.2.2 ["a.png", "b.png"] rfl rfl
    rw [hm]
    simp

/-- C9: a directory entry is a candidate image iff its name ends,
case-insensitively, in one of the seven supported extensions; all other
entries are ignored — only candidates are fingerprinted, compared, and
grouped. -/
theorem C9_extension_filter (env : Env) (thr : Nat)
    (h1 : env.isDir = true) {fs : List String} (h2 : env.listing = some fs)
    (hnd : fs.Nodup) {M : List (String × List String)}
    (hM : (find_similar_images env thr).result = some M) :
    (∀ name, isSupported name = true ↔
      (".png".data <:+ (name.data.map Char.toLower) ∨
       ".jpg".data <:+ (name.data.map Char.toLower) ∨
       ".jpeg".data <:+ (name.data.map Char.toLower) ∨
       ".bmp".data <:+ (name.data.map Char.toLower) ∨
       ".gif".data <:+ (name.data.map Char.toLower) ∨
       ".tiff".data <:+ (name.data.map Char.toLower) ∨
       ".webp".data <:+ (name.data.map Char.toLower))) ∧
    (∀ f, f ∈ imageFilesOf env ↔
      ∃ name, name ∈ fs ∧ isSupported name = true ∧ f = path_join env.folder name) ∧
    (∀ p, p ∈ hashedPathsOf env → p ∈ imageFilesOf env) ∧
    (∀ u v, (u, v) ∈ comparePairs thr (hashesOf env) →
      u ∈ imageFilesOf env ∧ v ∈ imageFilesOf env) ∧
    (∀ r g, (r, g) ∈ M → r ∈ imageFilesOf env ∧ ∀ x ∈ g, x ∈ imageFilesOf env) := by
  obtain ⟨hchar, _, _⟩ := find_groups_char env thr h1 h2 hnd hM
  obtain ⟨hA, _, _⟩ := adjOf_props env thr (hashedPathsOf_nodup h2 hnd)
  have hsubl : ∀ p, p ∈ hashedPathsOf env → p ∈ imageFilesOf env := by
    intro p hp
    exact (fingerprintsOf_keys_sublist env.decode (imageFilesOf env)).subset hp
  refine ⟨?_, ?_, hsubl, ?_, ?_⟩
  · intro name
    rw [isSupported, supported_formats]
    simp only [List.any_cons, List.any_nil, Bool.or_eq_true, Bool.false_eq_true, or_false,
      List.isSuffixOf_iff_suffix]
  · intro f
    rw [imageFilesOf, h2, Option.getD_some, candidateFiles]
    simp only [List.mem_map, List.mem_filter]
    constructor
    · rintro ⟨a, ⟨ha, hs⟩, rfl⟩
      exact ⟨a, ha, hs, rfl⟩
    · rintro ⟨a, ha, hs, rfl⟩
      exact ⟨a, ⟨ha, hs⟩, rfl⟩
  · intro u v huv
    obtain ⟨hu, hv⟩ := comparePairs_mem_keys huv
    exact ⟨hsubl u hu, hsubl v hv⟩
  · intro r g hmem
    obtain ⟨p, hp, _, hent⟩ := (hchar r g).mp hmem
    have hmemg : ∀ x ∈ g, x ∈ imageFilesOf env := by
      intro x hx
      exact hsubl x (reach_mem hA ((hent.1 x).mp hx) hp)
    exact ⟨hmemg r hent.2.2.2.1, hmemg⟩

theorem C9_witness :
    isSupported "Photo.JPG" = true ∧ isSupported "notes.txt" = false ∧
    ∀ p, p ∈ hashedPathsOf sampleEnv → p ∈ imageFilesOf sampleEnv := by
  have h := C9_extension_filter sampleEnv 5 rfl rfl (by decide)
    (show (find_similar_images sampleEnv 5).result =
      some [("d/a.png", ["d/a.png", "d/b.png"])] by decide)
  refine ⟨by decide, by decide, h.2.2.1⟩

/-- C10: on the fatal path with a callback provided, exactly one progress
event is delivered, carrying `current = 0`, `total = 1` and one of the two
error messages, and the function returns `None`. -/
theorem C10_fatal_single_event (env : Env) (thr : Nat)
    (hcb : env.hasCallback = true)
    (h : env.isDir = false ∨ env.listing = none) :
    (find_similar_images env thr).result = none ∧
    ∃ m, (find_similar_images env thr).events = [ProgressEvent.mk 0 1 m] ∧
      (m = "Erro: Pasta não encontrada em " ++ env.folder ∨
       m = "Erro ao listar diretório: " ++ env.listErr) := by
  refine ⟨find_result_fatal env thr h, ?_⟩
  by_cases hd : env.isDir = false
  · refine ⟨"Erro: Pasta não encontrada em " ++ env.folder, ?_, Or.inl rfl⟩
    rw [find_similar_images, if_pos hd]
    rw [emit, if_pos hcb]
  · rcases h with h | h
    · exact absurd h hd
    · refine ⟨"Erro ao listar diretório: " ++ env.listErr, ?_, Or.inr rfl⟩
      rw [find_similar_images, if_neg hd, h]
      rw [emit, if_pos hcb]

theorem C10_witness :
    (find_similar_images fatalEnv 5).result = none ∧
    ∃ m, (find_similar_images fatalEnv 5).events = [ProgressEvent.mk 0 1 m] ∧
      (m = "Erro: Pasta não encontrada em " ++ fatalEnv.folder ∨
       m = "Erro ao listar diretório: " ++ fatalEnv.listErr) :=
  C10_fatal_single_event fatalEnv 5 rfl (Or.inl rfl)


/-! ### Pair enumeration (C2) -/

theorem comparedPairs_mem {hs : List (String × Fingerprint)}
    (hnd : (hs.map Prod.fst).Nodup) {u v : String} (h : (u, v) ∈ comparedPairs hs) :
    u ∈ hs.map Prod.fst ∧ v ∈ hs.map Prod.fst ∧ u ≠ v := by
  induction hs with
  | nil => simp [comparedPairs] at h
  | cons ph rest ih =>
    obtain ⟨p, hp⟩ := ph
    rw [List.map_cons, List.nodup_cons] at hnd
    obtain ⟨hpk, hndr⟩ := hnd
    rw [comparedPairs, List.mem_append] at h
    rcases h with h | h
    · obtain ⟨qg, hqg, he⟩ := List.mem_map.mp h
      injection he with e1 e2
      subst e1; subst e2
      have hq1 : qg.1 ∈ rest.map Prod.fst := List.mem_map_of_mem Prod.fst hqg
      exact ⟨by simp, List.mem_cons_of_mem _ hq1, fun he => hpk (he ▸ hq1)⟩
    · obtain ⟨h1, h2, h3⟩ := ih hndr h
      exact ⟨List.mem_cons_of_mem _ h1, List.mem_cons_of_mem _ h2, h3⟩

theorem count_pair_map (p u v : String) (rest : List (String × Fingerprint)) :
    (rest.map (fun qg => (p, qg.1))).count (u, v) =
      if u = p then (rest.map Prod.fst).count v else 0 := by
  induction rest with
  | nil => simp
  | cons qg rest ih =>
    simp only [List.map_cons, List.count_cons, ih, beq_iff_eq, Prod.mk.injEq]
    by_cases hup : u = p
    · subst hup
      by_cases hv : qg.1 = v
      · simp [hv]
      · simp [hv]
    · split_ifs <;> simp_all


theorem comparedPairs_count {hs : List (String × Fingerprint)}
    (hnd : (hs.map Prod.fst).Nodup) {u v : String} (hne : u ≠ v)
    (hu : u ∈ hs.map Prod.fst) (hv : v ∈ hs.map Prod.fst) :
    (comparedPairs hs).count (u, v) + (comparedPairs hs).count (v, u) = 1 := by
  induction hs with
  | nil => simp at hu
  | cons ph rest ih =>
    obtain ⟨p, hp⟩ := ph
    rw [List.map_cons, List.nodup_cons] at hnd
    obtain ⟨hpk, hndr⟩ := hnd
    rw [comparedPairs]
    simp only [List.count_append, count_pair_map]
    rw [List.map_cons, List.mem_cons] at hu hv
    have hnomem : ∀ w z : String, w ∉ rest.map Prod.fst →
        (comparedPairs rest).count (w, z) = 0 ∧ (comparedPairs rest).count (z, w) = 0 := by
      intro w z hw
      constructor
      · rw [List.count_eq_zero]
        intro hc
        exact hw (comparedPairs_mem hndr hc).1
      · rw [List.count_eq_zero]
        intro hc
        exact hw (comparedPairs_mem hndr hc).2.1
    rcases hu with rfl | hu
    · have hvr : v ∈ rest.map Prod.fst := by
        rcases hv with rfl | hv
        · exact absurd rfl hne
        · exact hv
      obtain ⟨hz1, hz2⟩ := hnomem u v hpk
      rw [if_pos rfl, if_neg (fun h : v = u => hne h.symm), hz1, hz2]
      rw [List.count_eq_one_of_mem hndr hvr]
    · rcases hv with rfl | hv
      · obtain ⟨hz1, hz2⟩ := hnomem v u hpk
        rw [if_pos rfl, if_neg (fun h : u = v => hne h), hz1, hz2]
        rw [List.count_eq_one_of_mem hndr hu]
      · have hup : u ≠ p := fun he => hpk (he ▸ hu)
        have hvp : v ≠ p := fun he => hpk (he ▸ hv)
        rw [if_neg hup, if_neg hvp]
        have := ih hndr hu hv
        omega

theorem fingerprint_unique {hs : List (String × Fingerprint)}
    (hnd : (hs.map Prod.fst).Nodup) {u : String} {h1 h2 : Fingerprint}
    (hm1 : (u, h1) ∈ hs) (hm2 : (u, h2) ∈ hs) : h1 = h2 := by
  induction hs with
  | nil => simp at hm1
  | cons ph rest ih =>
    obtain ⟨p, hp⟩ := ph
    rw [List.map_cons, List.nodup_cons] at hnd
    obtain ⟨hpk, hndr⟩ := hnd
    rcases List.mem_cons.mp hm1 with he1 | hm1r
    · injection he1 with e1 e2
      subst e1; subst e2
      rcases List.mem_cons.mp hm2 with he2 | hm2r
      · injection he2 with e3 e4
        exact e4.symm
      · exact absurd (List.mem_map_of_mem Prod.fst hm2r) hpk
    · rcases List.mem_cons.mp hm2 with he2 | hm2r
      · injection he2 with e3 e4
        subst e3
        exact absurd (List.mem_map_of_mem Prod.fst hm1r) hpk
      · exact ih hndr hm1r hm2r

/-- C2: the similarity-graph builder enumerates every unordered pair of
successfully fingerprinted images exactly once (each pair of distinct hashed
paths is compared in exactly one orientation, and nothing else is compared),
and for each pair it adds the two directed adjacency edges iff the Hamming
distance of the fingerprints is at most the threshold — the threshold is
inclusive, and any pair strictly above it gets no edge. -/
theorem C2_pair_enumeration (thr : Nat) (hs : List (String × Fingerprint))
    (hnd : (hs.map Prod.fst).Nodup) :
    (∀ u v, (u, v) ∈ comparedPairs hs →
      u ∈ hs.map Prod.fst ∧ v ∈ hs.map Prod.fst ∧ u ≠ v) ∧
    (∀ u v, u ≠ v → u ∈ hs.map Prod.fst → v ∈ hs.map Prod.fst →
      (comparedPairs hs).count (u, v) + (comparedPairs hs).count (v, u) = 1) ∧
    (∀ u v hu hv, (u, hu) ∈ hs → (v, hv) ∈ hs → u ≠ v →
      (((u, v) ∈ comparePairs thr hs ∧ (v, u) ∈ comparePairs thr hs) ↔
        hammingDist hu hv ≤ thr)) := by
  refine ⟨fun u v h => comparedPairs_mem hnd h,
    fun u v hne hu hv => comparedPairs_count hnd hne hu hv, ?_⟩
  intro u v hu hv hmu hmv hne
  constructor
  · rintro ⟨h1, _⟩
    obtain ⟨_, hu', hv', hm1, hm2, hd⟩ := (comparePairs_mem_iff hnd).mp h1
    rw [fingerprint_unique hnd hmu hm1, fingerprint_unique hnd hmv hm2]
    exact hd
  · intro hd
    have h1 : (u, v) ∈ comparePairs thr hs :=
      (comparePairs_mem_iff hnd).mpr ⟨hne, hu, hv, hmu, hmv, hd⟩
    exact ⟨h1, comparePairs_mem_symm h1⟩

theorem C2_witness :
    (comparedPairs [("a", ([true] : Fingerprint)), ("b", [false])]).count ("a", "b") +
      (comparedPairs [("a", ([true] : Fingerprint)), ("b", [false])]).count ("b", "a") = 1 :=
  (C2_pair_enumeration 0 [("a", [true]), ("b", [false])] (by decide)).2.1 "a" "b"
    (by decide) (by decide) (by decide)


/-! ### Progress events (C7) -/

theorem two_mul_pairsOf : ∀ hs : List (String × Fingerprint),
    2 * pairsOf hs = hs.length * (hs.length - 1)
  | [] => rfl
  | x :: rest => by
    rw [pairsOf, List.length_cons, Nat.mul_add, two_mul_pairsOf rest]
    cases hn : rest.length with
    | zero => simp
    | succ m =>
      simp only [Nat.succ_sub_one]
      ring

theorem pairsOf_eq (hs : List (String × Fingerprint)) :
    pairsOf hs = hs.length * (hs.length - 1) / 2 := by
  have h := two_mul_pairsOf hs
  omega

theorem hashLoop_events_bounds (decode : String → Option Fingerprint) (T : Nat) :
    ∀ (files : List String) (c : Nat), ∀ e ∈ (hashLoop true decode T files c).2,
      c + 1 ≤ e.current ∧ e.current ≤ c + files.length ∧ e.total = T * 2 := by
  intro files
  induction files with
  | nil =>
    intro c e he
    simp [hashLoop] at he
  | cons p rest ih =>
    intro c e he
    have hsplit : e = (⟨c + 1, T * 2,
        "Calculando hash: " ++ toString (c + 1) ++ "/" ++ toString T⟩ : ProgressEvent) ∨
        e ∈ (hashLoop true decode T rest (c + 1)).2 := by
      rw [hashLoop] at he
      cases hd : decode p <;>
        · rw [hd] at he
          simpa [emit] using he
    rcases hsplit with rfl | he2
    · dsimp only
      simp only [List.length_cons]
      exact ⟨le_refl _, by omega, trivial⟩
    · obtain ⟨hb1, hb2, hb3⟩ := ih (c + 1) e he2
      simp only [List.length_cons]
      exact ⟨by omega, by omega, hb3⟩

theorem hashLoop_events_sorted (decode : String → Option Fingerprint) (T : Nat) :
    ∀ (files : List String) (c : Nat),
      List.Sorted (· ≤ ·) ((hashLoop true decode T files c).2.map ProgressEvent.current) := by
  intro files
  induction files with
  | nil =>
    intro c
    simp [hashLoop]
  | cons p rest ih =>
    intro c
    have hsplit : (hashLoop true decode T (p :: rest) c).2 =
        (⟨c + 1, T * 2, "Calculando hash: " ++ toString (c + 1) ++ "/" ++ toString T⟩ :
          ProgressEvent) :: (hashLoop true decode T rest (c + 1)).2 := by
      rw [hashLoop]
      cases hd : decode p <;> simp [hd, emit]
    rw [hsplit, List.map_cons, List.sorted_cons]
    refine ⟨?_, ih (c + 1)⟩
    intro b hb
    obtain ⟨e, he, rfl⟩ := List.mem_map.mp hb
    obtain ⟨hb1, _, _⟩ := hashLoop_events_bounds decode T rest (c + 1) e he
    show c + 1 ≤ e.current
    omega

theorem comparePhase_events_bounds (thr ti tso tc : Nat) :
    ∀ (hs : List (String × Fingerprint)) (cc : Nat),
      ∀ e ∈ (comparePhase true thr ti tso tc hs cc).2,
        ti + cc ≤ e.current ∧ e.current ≤ ti + cc + pairsOf hs ∧ e.total = tso := by
  intro hs
  induction hs with
  | nil =>
    intro cc e he
    simp [comparePhase] at he
  | cons ph rest ih =>
    obtain ⟨p, h⟩ := ph
    intro cc e he
    have hsplit : e = (⟨ti + cc, tso,
        "Comparando pares: " ++ toString cc ++ "/" ++ toString tc⟩ : ProgressEvent) ∨
        e ∈ (comparePhase true thr ti tso tc rest (cc + rest.length)).2 := by
      rw [comparePhase] at he
      simpa [emit] using he
    rcases hsplit with rfl | he2
    · dsimp only
      simp only [pairsOf]
      exact ⟨le_refl _, by omega, trivial⟩
    · obtain ⟨hb1, hb2, hb3⟩ := ih (cc + rest.length) e he2
      simp only [pairsOf]
      exact ⟨by omega, by omega, hb3⟩

theorem comparePhase_events_sorted (thr ti tso tc : Nat) :
    ∀ (hs : List (String × Fingerprint)) (cc : Nat),
      List.Sorted (· ≤ ·)
        ((comparePhase true thr ti tso tc hs cc).2.map ProgressEvent.current) := by
  intro hs
  induction hs with
  | nil =>
    intro cc
    simp [comparePhase]
  | cons ph rest ih =>
    obtain ⟨p, h⟩ := ph
    intro cc
    have hsplit : (comparePhase true thr ti tso tc ((p, h) :: rest) cc).2 =
        (⟨ti + cc, tso, "Comparando pares: " ++ toString cc ++ "/" ++ toString tc⟩ :
          ProgressEvent) :: (comparePhase true thr ti tso tc rest (cc + rest.length)).2 := by
      rw [comparePhase]
      simp [emit]
    rw [hsplit, List.map_cons, List.sorted_cons]
    refine ⟨?_, ih (cc + rest.length)⟩
    intro b hb
    obtain ⟨e, he, rfl⟩ := List.mem_map.mp hb
    obtain ⟨hb1, _, _⟩ := comparePhase_events_bounds thr ti tso tc rest (cc + rest.length) e he
    show ti + cc ≤ e.current
    omega

theorem sorted_append_le {l1 l2 : List Nat}
    (h1 : List.Sorted (· ≤ ·) l1) (h2 : List.Sorted (· ≤ ·) l2)
    (h12 : ∀ a ∈ l1, ∀ b ∈ l2, a ≤ b) : List.Sorted (· ≤ ·) (l1 ++ l2) :=
  List.pairwise_append.mpr ⟨h1, h2, h12⟩

theorem find_events_nocand (env : Env) (thr : Nat) (hcb : env.hasCallback = true)
    (h1 : env.isDir = true) {fs : List String} (h2 : env.listing = some fs)
    (hc : imageFilesOf env = []) :
    (find_similar_images env thr).events =
      [⟨1, 1, "Nenhum arquivo de imagem suportado encontrado."⟩] := by
  have hif : candidateFiles env.folder fs = imageFilesOf env := by
    rw [imageFilesOf, h2]; rfl
  rw [find_similar_images, if_neg (by rw [h1]; simp), h2]
  simp only [hif, hc, if_pos, emit, hcb, if_true]

theorem find_events_nohash (env : Env) (thr : Nat) (hcb : env.hasCallback = true)
    (h1 : env.isDir = true) {fs : List String} (h2 : env.listing = some fs)
    (hc : imageFilesOf env ≠ []) (hh : hashesOf env = []) :
    (find_similar_images env thr).events =
      ⟨0, (imageFilesOf env).length * 2,
        "Calculando hashes para " ++ toString (imageFilesOf env).length ++ " imagens..."⟩ ::
      ((hashLoop true env.decode (imageFilesOf env).length (imageFilesOf env) 0).2 ++
        [⟨(imageFilesOf env).length * 2, (imageFilesOf env).length * 2,
          "Nenhuma imagem pôde ser processada."⟩]) := by
  have hif : candidateFiles env.folder fs = imageFilesOf env := by
    rw [imageFilesOf, h2]; rfl
  have hh' : fingerprintsOf env.decode (imageFilesOf env) = [] := hh
  rw [find_similar_images, if_neg (by rw [h1]; simp), h2]
  simp only [hif, if_neg hc, hcb, hashLoop_fst, hh', if_pos, emit, if_true]
  rfl

theorem find_events_main (env : Env) (thr : Nat) (hcb : env.hasCallback = true)
    (h1 : env.isDir = true) {fs : List String} (h2 : env.listing = some fs)
    (hc : imageFilesOf env ≠ []) (hh : hashesOf env ≠ []) :
    ∃ mF, (find_similar_images env thr).events =
      ⟨0, (imageFilesOf env).length * 2,
        "Calculando hashes para " ++ toString (imageFilesOf env).length ++ " imagens..."⟩ ::
      ((hashLoop true env.decode (imageFilesOf env).length (imageFilesOf env) 0).2 ++
        ((comparePhase true thr (imageFilesOf env).length
            ((imageFilesOf env).length +
              (hashesOf env).length * ((hashesOf env).length - 1) / 2)
            ((hashesOf env).length * ((hashesOf env).length - 1) / 2)
            (hashesOf env) 0).2 ++
          [⟨(imageFilesOf env).length +
              (hashesOf env).length * ((hashesOf env).length - 1) / 2,
            (imageFilesOf env).length +
              (hashesOf env).length * ((hashesOf env).length - 1) / 2, mF⟩])) := by
  have hif : candidateFiles env.folder fs = imageFilesOf env := by
    rw [imageFilesOf, h2]; rfl
  have hh' : fingerprintsOf env.decode (imageFilesOf env) ≠ [] := hh
  refine ⟨"Concluído. Encontrados " ++
      toString (groupsLoop (adjList (comparePairs thr (hashesOf env)))
        ((hashesOf env).length + 1) ((hashesOf env).map Prod.fst) []).length ++
      " grupos de imagens similares.", ?_⟩
  rw [find_similar_images, if_neg (by rw [h1]; simp), h2]
  simp only [hif, if_neg hc, hcb, hashLoop_fst, if_neg hh', comparePhase_fst, emit, if_true,
    List.length_map]
  simp [List.append_assoc, hashesOf]

/-- C7: within a single run, the progress currents delivered to the callback
are monotonically non-decreasing, the final event of any non-fatal run has
`current = total`, and on the main path the event sequence is exactly the
hashing-phase events followed by the comparison-phase events, every
hashing-phase current being at most `total_images` and every
comparison-phase current at least `total_images`. -/
theorem C7_progress_events (env : Env) (thr : Nat)
    (hcb : env.hasCallback = true)
    (h1 : env.isDir = true) {fs : List String} (h2 : env.listing = some fs) :
    List.Sorted (· ≤ ·) ((find_similar_images env thr).events.map ProgressEvent.current) ∧
    (∃ e, ((find_similar_images env thr).events).getLast? = some e ∧ e.current = e.total) ∧
    (imageFilesOf env ≠ [] → hashesOf env ≠ [] →
      ∃ Eh Ec, (find_similar_images env thr).events = Eh ++ Ec ∧
        Eh = ⟨0, (imageFilesOf env).length * 2,
          "Calculando hashes para " ++ toString (imageFilesOf env).length ++
            " imagens..."⟩ ::
          (hashLoop true env.decode (imageFilesOf env).length (imageFilesOf env) 0).2 ∧
        (∀ e ∈ Eh, e.current ≤ (imageFilesOf env).length) ∧
        (∀ e ∈ Ec, (imageFilesOf env).length ≤ e.current)) := by
  by_cases hc : imageFilesOf env = []
  · rw [find_events_nocand env thr hcb h1 h2 hc]
    refine ⟨by simp, ⟨⟨1, 1, "Nenhum arquivo de imagem suportado encontrado."⟩, rfl, rfl⟩, ?_⟩
    intro hc2
    exact absurd hc hc2
  · by_cases hh : hashesOf env = []
    · rw [find_events_nohash env thr hcb h1 h2 hc hh]
      have hT1 : 1 ≤ (imageFilesOf env).length := by
        cases hfe : imageFilesOf env
        · exact absurd hfe hc
        · simp [hfe]
      refine ⟨?_, ?_, ?_⟩
      · rw [List.map_cons, List.map_append, List.sorted_cons]
        constructor
        · intro b _
          exact Nat.zero_le b
        · refine sorted_append_le (hashLoop_events_sorted env.decode _ _ _) (by simp) ?_
          intro a ha b hb
          obtain ⟨e, he, rfl⟩ := List.mem_map.mp ha
          obtain ⟨_, h4, _⟩ := hashLoop_events_bounds env.decode _ _ _ e he
          simp only [List.map_cons, List.map_nil, List.mem_singleton] at hb
          subst hb
          omega
      · refine ⟨⟨(imageFilesOf env).length * 2, (imageFilesOf env).length * 2,
          "Nenhuma imagem pôde ser processada."⟩, ?_, rfl⟩
        rw [show (⟨0, (imageFilesOf env).length * 2,
            "Calculando hashes para " ++ toString (imageFilesOf env).length ++
              " imagens..."⟩ : ProgressEvent) ::
            ((hashLoop true env.decode (imageFilesOf env).length (imageFilesOf env) 0).2 ++
              [⟨(imageFilesOf env).length * 2, (imageFilesOf env).length * 2,
                "Nenhuma imagem pôde ser processada."⟩]) =
            (⟨0, (imageFilesOf env).length * 2,
              "Calculando hashes para " ++ toString (imageFilesOf env).length ++
                " imagens..."⟩ ::
              (hashLoop true env.decode (imageFilesOf env).length (imageFilesOf env) 0).2) ++
            [⟨(imageFilesOf env).length * 2, (imageFilesOf env).length * 2,
              "Nenhuma imagem pôde ser processada."⟩] from by simp]
        exact List.getLast?_concat _
      · intro hc2 hh2
        exact absurd hh hh2
    · obtain ⟨mF, hev⟩ := find_events_main env thr hcb h1 h2 hc hh
      have hpe : (hashesOf env).length * ((hashesOf env).length - 1) / 2 =
          pairsOf (hashesOf env) := (pairsOf_eq (hashesOf env)).symm
      rw [hev]
      have hhb := hashLoop_events_bounds env.decode (imageFilesOf env).length
        (imageFilesOf env) 0
      have hcbnd := comparePhase_events_bounds thr (imageFilesOf env).length
        ((imageFilesOf env).length + (hashesOf env).length * ((hashesOf env).length - 1) / 2)
        ((hashesOf env).length * ((hashesOf env).length - 1) / 2) (hashesOf env) 0
      refine ⟨?_, ?_, ?_⟩
      · rw [List.map_cons, List.map_append, List.map_append, List.sorted_cons]
        constructor
        · intro b _
          exact Nat.zero_le b
        · refine sorted_append_le (hashLoop_events_sorted env.decode _ _ _)
            (sorted_append_le (comparePhase_events_sorted _ _ _ _ _ _) (by simp) ?_) ?_
          · intro a ha b hb
            obtain ⟨e, he, rfl⟩ := List.mem_map.mp ha
            obtain ⟨h3, h4, _⟩ := hcbnd e he
            simp only [List.map_cons, List.map_nil, List.mem_singleton] at hb
            subst hb
            rw [hpe]
            omega
          · intro a ha b hb
            obtain ⟨e, he, rfl⟩ := List.mem_map.mp ha
            obtain ⟨_, h4, _⟩ := hhb e he
            rcases List.mem_append.mp hb with hb | hb
            · obtain ⟨e2, he2, rfl⟩ := List.mem_map.mp hb
              obtain ⟨h5, _, _⟩ := hcbnd e2 he2
              omega
            · simp only [List.map_cons, List.map_nil, List.mem_singleton] at hb
              subst hb
              omega
      · refine ⟨⟨(imageFilesOf env).length +
            (hashesOf env).length * ((hashesOf env).length - 1) / 2,
          (imageFilesOf env).length +
            (hashesOf env).length * ((hashesOf env).length - 1) / 2, mF⟩, ?_, rfl⟩
        rw [show ∀ (a : ProgressEvent) (l1 l2 : List ProgressEvent) (x : ProgressEvent),
            a :: (l1 ++ (l2 ++ [x])) = (a :: (l1 ++ l2)) ++ [x] from by
          intro a l1 l2 x
          simp]
        exact List.getLast?_concat _
      · intro _ _
        refine ⟨⟨0, (imageFilesOf env).length * 2,
            "Calculando hashes para " ++ toString (imageFilesOf env).length ++
              " imagens..."⟩ ::
            (hashLoop true env.decode (imageFilesOf env).length (imageFilesOf env) 0).2,
          (comparePhase true thr (imageFilesOf env).length
              ((imageFilesOf env).length +
                (hashesOf env).length * ((hashesOf env).length - 1) / 2)
              ((hashesOf env).length * ((hashesOf env).length - 1) / 2)
              (hashesOf env) 0).2 ++
            [⟨(imageFilesOf env).length +
                (hashesOf env).length * ((hashesOf env).length - 1) / 2,
              (imageFilesOf env).length +
                (hashesOf env).length * ((hashesOf env).length - 1) / 2,
              mF⟩], ?_, rfl, ?_, ?_⟩
        · rw [List.cons_append]
        · intro e he
          rcases List.mem_cons.mp he with rfl | he
          · simp
          · obtain ⟨_, h4, _⟩ := hashLoop_events_bounds env.decode _ _ _ e he
            omega
        · intro e he
          rcases List.mem_append.mp he with he | he
          · obtain ⟨h3, _, _⟩ := comparePhase_events_bounds _ _ _ _ _ _ e he
            omega
          · rcases List.mem_singleton.mp he with rfl
            simp

theorem C7_witness :
    List.Sorted (· ≤ ·)
      ((find_similar_images sampleEnv 5).events.map ProgressEvent.current) :=
  (C7_progress_events sampleEnv 5 rfl rfl rfl).1


/-! ### Permutation invariance (C4) and threshold monotonicity (C5) -/

theorem imageFilesOf_perm {e1 e2 : Env} {fs1 fs2 : List String}
    (hfold : e1.folder = e2.folder)
    (h2a : e1.listing = some fs1) (h2b : e2.listing = some fs2)
    (hperm : List.Perm fs1 fs2) :
    List.Perm (imageFilesOf e1) (imageFilesOf e2) := by
  rw [imageFilesOf, imageFilesOf, h2a, h2b, Option.getD_some, Option.getD_some,
    candidateFiles, candidateFiles, hfold]
  exact (hperm.filter _).map _

theorem hashesOf_perm {e1 e2 : Env} {fs1 fs2 : List String}
    (hfold : e1.folder = e2.folder) (hdec : e1.decode = e2.decode)
    (h2a : e1.listing = some fs1) (h2b : e2.listing = some fs2)
    (hperm : List.Perm fs1 fs2) :
    List.Perm (hashesOf e1) (hashesOf e2) := by
  rw [hashesOf, hashesOf, fingerprintsOf, fingerprintsOf, hdec]
  exact (imageFilesOf_perm hfold h2a h2b hperm).filterMap _

/-- C4: permuting the order in which the directory entries are enumerated
(and hence the iteration order of the hashing loop, the pairwise loops and
the BFS) leaves the returned mapping identical as a mapping: the same
key/value pairs, with pairwise-distinct keys on both sides. -/
theorem C4_listing_order_irrelevant (e1 e2 : Env) (thr : Nat)
    (hfold : e1.folder = e2.folder) (hdec : e1.decode = e2.decode)
    (h1a : e1.isDir = true) (h1b : e2.isDir = true)
    {fs1 fs2 : List String} (h2a : e1.listing = some fs1) (h2b : e2.listing = some fs2)
    (hperm : List.Perm fs1 fs2) (hnd : fs1.Nodup)
    {M1 M2 : List (String × List String)}
    (hM1 : (find_similar_images e1 thr).result = some M1)
    (hM2 : (find_similar_images e2 thr).result = some M2) :
    (∀ rg : String × List String, rg ∈ M1 ↔ rg ∈ M2) ∧
    (M1.map Prod.fst).Nodup ∧ (M2.map Prod.fst).Nodup := by
  have hnd2 : fs2.Nodup := hperm.nodup_iff.mp hnd
  have hhp : List.Perm (hashesOf e1) (hashesOf e2) := hashesOf_perm hfold hdec h2a h2b hperm
  have hkeys1 : ((hashesOf e1).map Prod.fst).Nodup := hashedPathsOf_nodup h2a hnd
  have hkeys2 : ((hashesOf e2).map Prod.fst).Nodup := hashedPathsOf_nodup h2b hnd2
  have hedge : ∀ u v, ((u, v) ∈ comparePairs thr (hashesOf e1) ↔
      (u, v) ∈ comparePairs thr (hashesOf e2)) := by
    intro u v
    rw [comparePairs_mem_iff hkeys1, comparePairs_mem_iff hkeys2]
    constructor
    · rintro ⟨hne, hu, hv, hm1, hm2, hd⟩
      exact ⟨hne, hu, hv, hhp.mem_iff.mp hm1, hhp.mem_iff.mp hm2, hd⟩
    · rintro ⟨hne, hu, hv, hm1, hm2, hd⟩
      exact ⟨hne, hu, hv, hhp.mem_iff.mpr hm1, hhp.mem_iff.mpr hm2, hd⟩
  have hadj : ∀ u v, (v ∈ adjOf e1 thr u ↔ v ∈ adjOf e2 thr u) := by
    intro u v
    rw [adjOf, adjOf, adjList_mem, adjList_mem]
    exact hedge u v
  have hreach : ∀ p x, (Reach (adjOf e1 thr) p x ↔ Reach (adjOf e2 thr) p x) := by
    intro p x
    constructor
    · exact reach_mono (fun u v hv => (hadj u v).mp hv)
    · exact reach_mono (fun u v hv => (hadj u v).mpr hv)
  have hnonnil : ∀ p, (adjOf e1 thr p ≠ [] ↔ adjOf e2 thr p ≠ []) := by
    intro p
    constructor
    · intro h
      obtain ⟨v, hv⟩ := List.exists_mem_of_ne_nil _ h
      exact List.ne_nil_of_mem ((hadj p v).mp hv)
    · intro h
      obtain ⟨v, hv⟩ := List.exists_mem_of_ne_nil _ h
      exact List.ne_nil_of_mem ((hadj p v).mpr hv)
  have hpaths : ∀ p, (p ∈ hashedPathsOf e1 ↔ p ∈ hashedPathsOf e2) := by
    intro p
    rw [hashedPathsOf, hashedPathsOf]
    exact (hhp.map Prod.fst).mem_iff
  have hent : ∀ p r g, (IsGroupEntry (adjOf e1 thr) p r g ↔
      IsGroupEntry (adjOf e2 thr) p r g) := by
    intro p r g
    rw [IsGroupEntry, IsGroupEntry]
    constructor
    · rintro ⟨hm, hs, hn, hr, hl⟩
      exact ⟨fun x => (hm x).trans (hreach p x), hs, hn, hr, hl⟩
    · rintro ⟨hm, hs, hn, hr, hl⟩
      exact ⟨fun x => (hm x).trans (hreach p x).symm, hs, hn, hr, hl⟩
  obtain ⟨hchar1, hkeysnd1, _⟩ := find_groups_char e1 thr h1a h2a hnd hM1
  obtain ⟨hchar2, hkeysnd2, _⟩ := find_groups_char e2 thr h1b h2b hnd2 hM2
  refine ⟨?_, hkeysnd1, hkeysnd2⟩
  rintro ⟨r, g⟩
  rw [hchar1 r g, hchar2 r g]
  constructor
  · rintro ⟨p, hp1, hp2, hp3⟩
    exact ⟨p, (hpaths p).mp hp1, (hnonnil p).mp hp2, (hent p r g).mp hp3⟩
  · rintro ⟨p, hp1, hp2, hp3⟩
    exact ⟨p, (hpaths p).mpr hp1, (hnonnil p).mpr hp2, (hent p r g).mpr hp3⟩

theorem C4_witness :
    (("d/a.png", ["d/a.png", "d/b.png"]) ∈
        ([("d/a.png", ["d/a.png", "d/b.png"])] : List (String × List String)) ↔
      ("d/a.png", ["d/a.png", "d/b.png"]) ∈
        ([("d/a.png", ["d/a.png", "d/b.png"])] : List (String × List String))) :=
  (C4_listing_order_irrelevant sampleEnv sampleEnvB 5 rfl rfl rfl rfl rfl rfl
    (by decide) (by decide)
    (show (find_similar_images sampleEnv 5).result =
      some [("d/a.png", ["d/a.png", "d/b.png"])] by decide)
    (show (find_similar_images sampleEnvB 5).result =
      some [("d/a.png", ["d/a.png", "d/b.png"])] by decide)).1
    ("d/a.png", ["d/a.png", "d/b.png"])

theorem adjOf_mono (env : Env) {T1 T2 : Nat} (hT : T1 ≤ T2)
    (hnd : ((hashesOf env).map Prod.fst).Nodup) :
    ∀ u v, v ∈ adjOf env T1 u → v ∈ adjOf env T2 u := by
  intro u v hv
  rw [adjOf, adjList_mem] at hv ⊢
  obtain ⟨hne, hu, hv', hm1, hm2, hd⟩ := (comparePairs_mem_iff hnd).mp hv
  exact (comparePairs_mem_iff hnd).mpr ⟨hne, hu, hv', hm1, hm2, le_trans hd hT⟩

/-- C5: raising the similarity threshold from `T1` to `T2 > T1` refines the
grouping upward: every group returned at `T1` is contained in some group
returned at `T2`, whose member list is at least as long. -/
theorem C5_threshold_monotone (env : Env) (T1 T2 : Nat) (hT : T1 < T2)
    (h1 : env.isDir = true) {fs : List String} (h2 : env.listing = some fs)
    (hnd : fs.Nodup) {M1 M2 : List (String × List String)}
    (hM1 : (find_similar_images env T1).result = some M1)
    (hM2 : (find_similar_images env T2).result = some M2) :
    ∀ r1 g1, (r1, g1) ∈ M1 → ∃ r2 g2, (r2, g2) ∈ M2 ∧
      (∀ x ∈ g1, x ∈ g2) ∧ g1.length ≤ g2.length := by
  have hknd : ((hashesOf env).map Prod.fst).Nodup := hashedPathsOf_nodup h2 hnd
  have hmono := adjOf_mono env (le_of_lt hT) hknd
  obtain ⟨hchar1, _, _⟩ := find_groups_char env T1 h1 h2 hnd hM1
  obtain ⟨hchar2, _, hcov2⟩ := find_groups_char env T2 h1 h2 hnd hM2
  intro r1 g1 hm1
  obtain ⟨p, hp, hpe, hent1⟩ := (hchar1 r1 g1).mp hm1
  have hpe2 : adjOf env T2 p ≠ [] := by
    obtain ⟨v, hv⟩ := List.exists_mem_of_ne_nil _ hpe
    exact List.ne_nil_of_mem (hmono p v hv)
  obtain ⟨r2, g2, hm2, hpg2⟩ := hcov2 p hp hpe2
  obtain ⟨p2, _, _, hent2⟩ := (hchar2 r2 g2).mp hm2
  have hsub : ∀ x ∈ g1, x ∈ g2 := by
    intro x hx
    have hrx : Reach (adjOf env T2) p x := reach_mono hmono ((hent1.1 x).mp hx)
    have hp2p : Reach (adjOf env T2) p2 p := (hent2.1 p).mp hpg2
    exact (hent2.1 x).mpr (Relation.ReflTransGen.trans hp2p hrx)
  refine ⟨r2, g2, hm2, hsub, ?_⟩
  have hfin : g1.toFinset ⊆ g2.toFinset := by
    intro x hx
    rw [List.mem_toFinset] at hx ⊢
    exact hsub x hx
  calc g1.length = g1.toFinset.card := (List.toFinset_card_of_nodup hent1.2.2.1).symm
  _ ≤ g2.toFinset.card := Finset.card_le_card hfin
  _ ≤ g2.length := List.toFinset_card_le g2

theorem C5_witness :
    ∃ r2 g2, (r2, g2) ∈ [("d/a.png", ["d/a.png", "d/b.png"])] ∧
      (∀ x ∈ (["d/a.png", "d/b.png"] : List String), x ∈ g2) ∧
      (["d/a.png", "d/b.png"] : List String).length ≤ g2.length :=
  C5_threshold_monotone sampleEnv 0 5 (by decide) rfl rfl (by decide)
    (show (find_similar_images sampleEnv 0).result =
      some [("d/a.png", ["d/a.png", "d/b.png"])] by decide)
    (show (find_similar_images sampleEnv 5).result =
      some [("d/a.png", ["d/a.png", "d/b.png"])] by decide)
    "d/a.png" ["d/a.png", "d/b.png"] (by decide)


/-! ### Cancellation semantics of the worker (C8) -/

theorem runSched_classify (F : Nat → Bool) :
    ∀ (sched : List Step) (k : Nat) (a : Action), a ∈ runSched F sched k →
      Sum.inl a ∈ sched ∨ (∃ j, a = Action.flagRead j (F j)) ∨
      (∃ e j, F j = true ∧ a = Action.progressSignal e ∧ Sum.inr e ∈ sched) := by
  intro sched
  induction sched with
  | nil =>
    intro k a ha
    simp [runSched] at ha
  | cons st rest ih =>
    intro k a ha
    cases st with
    | inl b =>
      rw [runSched] at ha
      rcases List.mem_cons.mp ha with rfl | ha
      · exact Or.inl (List.mem_cons_self _ _)
      · rcases ih k a ha with h | h | ⟨e, j, h1, h2, h3⟩
        · exact Or.inl (List.mem_cons_of_mem _ h)
        · exact Or.inr (Or.inl h)
        · exact Or.inr (Or.inr ⟨e, j, h1, h2, List.mem_cons_of_mem _ h3⟩)
    | inr e0 =>
      rw [runSched] at ha
      rcases List.mem_cons.mp ha with rfl | ha
      · exact Or.inr (Or.inl ⟨k, rfl⟩)
      · by_cases hf : F k = true
        · rw [if_pos hf] at ha
          rcases List.mem_cons.mp ha with rfl | ha
          · exact Or.inr (Or.inr ⟨e0, k, hf, rfl, List.mem_cons_self _ _⟩)
          · rcases ih (k + 1) a ha with h | h | ⟨e, j, h1, h2, h3⟩
            · exact Or.inl (List.mem_cons_of_mem _ h)
            · exact Or.inr (Or.inl h)
            · exact Or.inr (Or.inr ⟨e, j, h1, h2, List.mem_cons_of_mem _ h3⟩)
        · rw [if_neg hf] at ha
          rcases ih (k + 1) a ha with h | h | ⟨e, j, h1, h2, h3⟩
          · exact Or.inl (List.mem_cons_of_mem _ h)
          · exact Or.inr (Or.inl h)
          · exact Or.inr (Or.inr ⟨e, j, h1, h2, List.mem_cons_of_mem _ h3⟩)

theorem runSched_work_mem (F : Nat → Bool) {a : Action} (ha : a.isWork = true) :
    ∀ (sched : List Step) (k : Nat), a ∈ runSched F sched k ↔ Sum.inl a ∈ sched := by
  have hne1 : ∀ j v, a ≠ Action.flagRead j v := by
    intro j v h
    subst h
    simp [Action.isWork] at ha
  have hne2 : ∀ e, a ≠ Action.progressSignal e := by
    intro e h
    subst h
    simp [Action.isWork] at ha
  intro sched
  induction sched with
  | nil =>
    intro k
    simp [runSched]
  | cons st rest ih =>
    intro k
    cases st with
    | inl b =>
      rw [runSched, List.mem_cons, List.mem_cons, ih k]
      constructor
      · rintro (rfl | h)
        · exact Or.inl rfl
        · exact Or.inr h
      · rintro (h | h)
        · injection h with h'
          exact Or.inl h'
        · exact Or.inr h
    | inr e0 =>
      rw [runSched, List.mem_cons, List.mem_cons]
      constructor
      · rintro (rfl | h)
        · exact absurd rfl (hne1 k (F k))
        · right
          by_cases hf : F k = true
          · rw [if_pos hf] at h
            rcases List.mem_cons.mp h with rfl | h
            · exact absurd rfl (hne2 e0)
            · exact (ih (k + 1)).mp h
          · rw [if_neg hf] at h
            exact (ih (k + 1)).mp h
      · rintro (h | h)
        · exact absurd h (by simp)
        · right
          by_cases hf : F k = true
          · rw [if_pos hf]
            exact List.mem_cons_of_mem _ ((ih (k + 1)).mpr h)
          · rw [if_neg hf]
            exact (ih (k + 1)).mpr h

theorem hashSchedule_inl {T : Nat} : ∀ {files : List String} {c : Nat} {a : Action},
    Sum.inl a ∈ hashSchedule T files c → a.isWork = true := by
  intro files
  induction files with
  | nil =>
    intro c a h
    simp [hashSchedule] at h
  | cons p rest ih =>
    intro c a h
    rw [hashSchedule] at h
    rcases List.mem_cons.mp h with he | h
    · injection he with he'
      subst he'
      rfl
    · rcases List.mem_cons.mp h with he | h
      · exact absurd he (by simp)
      · exact ih h

theorem cmpSchedule_inl {ti tso tc : Nat} : ∀ {hs : List (String × Fingerprint)} {cc : Nat}
    {a : Action}, Sum.inl a ∈ cmpSchedule ti tso tc hs cc → a.isWork = true := by
  intro hs
  induction hs with
  | nil =>
    intro cc a h
    simp [cmpSchedule] at h
  | cons ph rest ih =>
    obtain ⟨p, hp⟩ := ph
    intro cc a h
    rw [cmpSchedule] at h
    rcases List.mem_cons.mp h with he | h
    · exact absurd he (by simp)
    · rcases List.mem_append.mp h with h | h
      · obtain ⟨qg, hqg, he⟩ := List.mem_map.mp h
        injection he with he'
        subst he'
        rfl
      · exact ih h

theorem scheduleOf_inl (env : Env) (thr : Nat) :
    ∀ {a : Action}, Sum.inl a ∈ scheduleOf env thr → a.isWork = true := by
  intro a h
  by_cases hd : env.isDir = false
  · rw [scheduleOf, if_pos hd] at h
    simp at h
  · cases hl : env.listing with
    | none =>
      rw [scheduleOf, if_neg hd, hl] at h
      simp at h
    | some fs =>
      rw [scheduleOf, if_neg hd, hl] at h
      dsimp only at h
      by_cases hc : candidateFiles env.folder fs = []
      · rw [if_pos hc] at h
        simp at h
      · rw [if_neg hc] at h
        rcases List.mem_cons.mp h with he | h
        · exact absurd he (by simp)
        · rcases List.mem_append.mp h with h | h
          · exact hashSchedule_inl h
          · by_cases hh : fingerprintsOf env.decode (candidateFiles env.folder fs) = []
            · rw [if_pos hh] at h
              simp at h
            · rw [if_neg hh] at h
              rcases List.mem_append.mp h with h | h
              · exact cmpSchedule_inl h
              · simp at h

theorem worker_trace_work_mem (env : Env) (thr : Nat) (F : Nat → Bool)
    {a : Action} (ha : a.isWork = true) :
    a ∈ worker_trace env thr F ↔ Sum.inl a ∈ scheduleOf env thr := by
  have hne1 : ∀ j v, a ≠ Action.flagRead j v := by
    intro j v h
    subst h
    simp [Action.isWork] at ha
  have hne3 : ∀ m, a ≠ Action.resultsSignal m := by
    intro m h
    subst h
    simp [Action.isWork] at ha
  have hne4 : a ≠ Action.finishedSignal := by
    intro h
    subst h
    simp [Action.isWork] at ha
  rw [worker_trace, List.mem_append]
  constructor
  · rintro (h | h)
    · exact (runSched_work_mem F ha _ _).mp h
    · exfalso
      rcases List.mem_cons.mp h with he | h
      · exact hne1 _ _ he
      · rcases List.mem_append.mp h with h | h
        · by_cases hf : F (numReads (scheduleOf env thr)) = true
          · rw [if_pos hf] at h
            cases hres : (find_similar_images { env with hasCallback := true } thr).result with
            | some m =>
              rw [hres] at h
              rcases List.mem_singleton.mp h with he
              exact hne3 m he
            | none =>
              rw [hres] at h
              simp at h
          · rw [if_neg hf] at h
            simp at h
        · rcases List.mem_cons.mp h with he | h
          · exact hne1 _ _ he
          · by_cases hf2 : F (numReads (scheduleOf env thr) + 1) = true
            · rw [if_pos hf2] at h
              rcases List.mem_singleton.mp h with he
              exact hne4 he
            · rw [if_neg hf2] at h
              simp at h
  · intro h
    exact Or.inl ((runSched_work_mem F ha _ _).mpr h)

theorem worker_trace_results (env : Env) (thr : Nat) (F : Nat → Bool)
    {m : List (String × List String)}
    (h : Action.resultsSignal m ∈ worker_trace env thr F) :
    F (numReads (scheduleOf env thr)) = true ∧
    (find_similar_images { env with hasCallback := true } thr).result = some m := by
  rw [worker_trace, List.mem_append] at h
  rcases h with h | h
  · exfalso
    rcases runSched_classify F _ _ _ h with h | ⟨j, he⟩ | ⟨e, j, _, he, _⟩
    · have := scheduleOf_inl env thr h
      simp [Action.isWork] at this
    · simp at he
    · simp at he
  · rcases List.mem_cons.mp h with he | h
    · simp at he
    · rcases List.mem_append.mp h with h | h
      · by_cases hf : F (numReads (scheduleOf env thr)) = true
        · rw [if_pos hf] at h
          cases hres : (find_similar_images { env with hasCallback := true } thr).result with
          | some m2 =>
            rw [hres] at h
            have he := List.mem_singleton.mp h
            injection he with he'
            subst he'
            exact ⟨hf, rfl⟩
          | none =>
            rw [hres] at h
            simp at h
        · rw [if_neg hf] at h
          simp at h
      · exfalso
        rcases List.mem_cons.mp h with he | h
        · simp at he
        · by_cases hf2 : F (numReads (scheduleOf env thr) + 1) = true
          · rw [if_pos hf2] at h
            have he := List.mem_singleton.mp h
            simp at he
          · rw [if_neg hf2] at h
            simp at h

theorem worker_trace_finished (env : Env) (thr : Nat) (F : Nat → Bool) :
    Action.finishedSignal ∈ worker_trace env thr F ↔
      F (numReads (scheduleOf env thr) + 1) = true := by
  constructor
  · intro h
    rw [worker_trace, List.mem_append] at h
    rcases h with h | h
    · exfalso
      rcases runSched_classify F _ _ _ h with h | ⟨j, he⟩ | ⟨e, j, _, he, _⟩
      · have := scheduleOf_inl env thr h
        simp [Action.isWork] at this
      · simp at he
      · simp at he
    · rcases List.mem_cons.mp h with he | h
      · simp at he
      · rcases List.mem_append.mp h with h | h
        · exfalso
          by_cases hf : F (numReads (scheduleOf env thr)) = true
          · rw [if_pos hf] at h
            cases hres : (find_similar_images { env with hasCallback := true } thr).result with
            | some m2 =>
              rw [hres] at h
              have he := List.mem_singleton.mp h
              simp at he
            | none =>
              rw [hres] at h
              simp at h
          · rw [if_neg hf] at h
            simp at h
        · rcases List.mem_cons.mp h with he | h
          · simp at he
          · by_cases hf2 : F (numReads (scheduleOf env thr) + 1) = true
            · exact hf2
            · rw [if_neg hf2] at h
              simp at h
  · intro hf2
    rw [worker_trace]
    refine List.mem_append_right _ ?_
    refine List.mem_cons_of_mem _ ?_
    refine List.mem_append_right _ ?_
    refine List.mem_cons_of_mem _ ?_
    rw [if_pos hf2]
    simp

/-- C8, counterexample to the claim as stated: with the stop flag already
set before the scan starts (the first observable step is a flag read that
observes `false`), the worker nevertheless starts new per-image work
afterwards, and completion-of-attempt (`finished`) is never signalled. -/
theorem C8_counterexample :
    (worker_trace sampleEnv 5 (fun _ => false)).head? =
      some (Action.flagRead 0 false) ∧
    Action.hashWork "d/a.png" ∈ (worker_trace sampleEnv 5 (fun _ => false)).drop 1 ∧
    Action.finishedSignal ∉ worker_trace sampleEnv 5 (fun _ => false) := by
  decide

/-- C8 (amended): once the stop flag is set it only suppresses delivery, not
work: (i) the per-image and per-pair work items of a run are exactly those of
the uncancelled run, whatever the flag does; (ii) the results signal is
delivered only if the flag still reads `true` at its checkpoint, and only
with a non-`None` result; (iii) the `finished` signal is delivered iff the
flag reads `true` at the `finally` checkpoint — so a stopped scan does not
signal completion; (iv) if the flag is already `false` before the scan
starts, the trace consists solely of work items and failed flag reads — no
progress, results or finished signal is delivered. -/
theorem C8_cancellation_suppresses_signals_not_work (env : Env) (thr : Nat)
    (F : Nat → Bool) (hmono : ∀ i j : Nat, i ≤ j → F j = true → F i = true) :
    (∀ a : Action, a.isWork = true →
      (a ∈ worker_trace env thr F ↔ a ∈ worker_trace env thr (fun _ => true))) ∧
    (∀ m, Action.resultsSignal m ∈ worker_trace env thr F →
      F (numReads (scheduleOf env thr)) = true ∧
      (find_similar_images { env with hasCallback := true } thr).result = some m) ∧
    (Action.finishedSignal ∈ worker_trace env thr F ↔
      F (numReads (scheduleOf env thr) + 1) = true) ∧
    (F 0 = false → ∀ a ∈ worker_trace env thr F,
      a.isWork = true ∨ ∃ k, a = Action.flagRead k false) := by
  refine ⟨?_, fun m h => worker_trace_results env thr F h,
    worker_trace_finished env thr F, ?_⟩
  · intro a ha
    rw [worker_trace_work_mem env thr F ha,
      worker_trace_work_mem env thr (fun _ => true) ha]
  · intro h0
    have hall : ∀ k, F k = false := by
      intro k
      cases hv : F k
      · rfl
      · rw [hmono 0 k (Nat.zero_le k) hv] at h0
        exact absurd h0 (by simp)
    intro a ha
    rw [worker_trace, List.mem_append] at ha
    rcases ha with ha | ha
    · rcases runSched_classify F _ _ _ ha with h | ⟨j, he⟩ | ⟨e, j, hj, _, _⟩
      · exact Or.inl (scheduleOf_inl env thr h)
      · right
        refine ⟨j, ?_⟩
        rw [he, hall j]
      · rw [hall j] at hj
        exact absurd hj (by simp)
    · right
      rcases List.mem_cons.mp ha with he | ha
      · refine ⟨numReads (scheduleOf env thr), ?_⟩
        rw [he, hall _]
      · rcases List.mem_append.mp ha with ha | ha
        · rw [if_neg (by simp [hall])] at ha
          simp at ha
        · rcases List.mem_cons.mp ha with he | ha
          · refine ⟨numReads (scheduleOf env thr) + 1, ?_⟩
            rw [he, hall _]
          · rw [if_neg (by simp [hall])] at ha
            simp at ha

theorem C8_witness :
    Action.hashWork "d/a.png" ∈ worker_trace sampleEnv 5 (fun _ => false) ↔
      Action.hashWork "d/a.png" ∈ worker_trace sampleEnv 5 (fun _ => true) :=
  (C8_cancellation_suppresses_signals_not_work sampleEnv 5 (fun _ => false)
    (fun _ _ _ hj => hj)).1 (Action.hashWork "d/a.png") rfl

end ImageCop
